import Mathlib

/-!
Verification of the magellan oligo-design backend core.

Shallow embedding of the Python sources:
  backend/core/models.py, backend/core/thermodynamics.py, backend/core/validator.py,
  backend/core/generator.py, backend/generate_oligo_sequences.py, backend/api/routes.py.

Conventions of the embedding:
* Python strings are Lean `String`; per-character operations work on `String.data`.
* Python floats are modelled as exact rationals `ℚ`.  All thresholds in the code
  are small decimals with exact rational values, and no claim hinges on a
  floating-point rounding edge case.
* Calls into the external primer3 library (the "Thermodynamic Oracle") are a
  structure of abstract function parameters (`Oracle`), since the spec excludes
  the physical thermodynamics computation itself; theorems quantify over all
  oracle behaviours.
* Randomness (Python `random.sample`) is modelled by an explicit index stream
  `rand : Nat → Nat`; every possible run of the code corresponds to some `rand`.
* The Redis length-indexed sequence store is a parameter `pool : Nat → List String`
  giving the members of the set `sequences:length:{n}`; a Redis set is a
  duplicate-free unordered collection, hence `List.Nodup` hypotheses where the
  set-ness matters.
* Python exceptions caught by a surrounding `try/except` that returns a
  failure value are modelled by the failure value directly.
-/

namespace Magellan

/-- Python `str.upper()` modelled per character (ASCII case mapping). -/
def pyUpper (s : String) : String := String.mk (s.data.map Char.toUpper)

/-- Python `s[::-1]`. -/
def pyRev (s : String) : String := String.mk s.data.reverse

/-- Python slice `s[i:i+k]`. -/
def pySlice (s : String) (i k : Nat) : String := String.mk ((s.data.drop i).take k)

/-- Python `s[-k:]` (the last `k` characters; the whole string when `len(s) ≤ k`).
The sources always write it guarded as `s[-k:] if len(s) >= k else s`, which is
the same function. -/
def pyTakeLast (s : String) (k : Nat) : String :=
  String.mk (s.data.drop (s.data.length - k))

/-- Python substring containment `pat in s`. -/
def pyIn (pat s : String) : Bool := decide (pat.data <:+: s.data)

/-- Python `s.count(c)` for a single-character needle. -/
def pyCount (s : String) (c : Char) : Nat := s.data.count c

theorem pyTakeLast_length (s : String) (k : Nat) :
    (pyTakeLast s k).data.length = s.data.length - (s.data.length - k) := by
  simp [pyTakeLast]

/-! ## backend/core/models.py -/

/-- Domain dataclass (models.py).  Field-for-field translation. -/
structure Domain where
  id : Int
  name : String
  length : Nat
  sequence : String := ""
  role : String := "binding"
  isComplement : Bool := false
  complementOf : Option Int := none
deriving DecidableEq, Repr

/-- Strand dataclass (models.py). -/
structure Strand where
  id : Int
  name : String
  domainIds : List Int
  sequence : String := ""
  validated : Bool := false
deriving DecidableEq, Repr

/-- ValidationSettings dataclass (models.py) with its default values.  The
Redis/system bookkeeping fields (`redisHost`, `cacheTimeout`, ...) are never read
by the validated code and are omitted. -/
structure ValidationSettings where
  reactionTemp : ℚ := 37
  saltConc : ℚ := 50
  mgConc : ℚ := 2
  hairpinTm : ℚ := 32
  selfDimerTm : ℚ := 32
  crossDimerDgMin : ℚ := -5
  hybridizationTmMin : ℚ := 42
  hybridizationTmMax : ℚ := 60
  gcContentMin : ℚ := 30
  gcContentMax : ℚ := 70
  threePrimeSelfDimerTm : ℚ := 27
  threePrimeHairpinTm : ℚ := 27
  threePrimeCrossDimerDgMin : ℚ := -2
  threePrimeLength : Nat := 6
deriving DecidableEq, Repr

/-- Default-constructed `ValidationSettings()`. -/
def defaultSettings : ValidationSettings := {}

/-- ValidationResult dataclass (models.py).  The human-readable `value`,
`threshold` and `details` strings are presentation-only (none of the claims
mention them) and are omitted; `passed` and `check_type` are kept. -/
structure ValidationResult where
  passed : Bool
  check_type : String
deriving DecidableEq, Repr

/-- Character-level complement used by `reverse_complement` (models.py):
`complement_map.get(base.upper(), base)`. -/
def complementChar (c : Char) : Char :=
  if c.toUpper = 'A' then 'T'
  else if c.toUpper = 'T' then 'A'
  else if c.toUpper = 'G' then 'C'
  else if c.toUpper = 'C' then 'G'
  else if c.toUpper = 'N' then 'N'
  else c

/-- models.py `reverse_complement`: complement of each base of the reversed
string. -/
def reverse_complement (s : String) : String :=
  String.mk (s.data.reverse.map complementChar)

/-! ## backend/core/thermodynamics.py -/

/-- The Thermodynamic Oracle: the primer3 calls made by
`ThermodynamicCalculator`, as abstract deterministic functions.  `tm` is
`primer3.calc_tm`, `hairpinTm` is `primer3.calc_hairpin(...).tm`, `homodimerTm`
is `primer3.calc_homodimer(...).tm`, `heterodimerDg` is
`primer3.calc_heterodimer(...).dg`. -/
structure Oracle where
  tm : String → ℚ
  hairpinTm : String → ℚ
  homodimerTm : String → ℚ
  heterodimerDg : String → String → ℚ

/-- thermodynamics.py `calculate_melting_temperature`. -/
def calculate_melting_temperature (o : Oracle) (sequence : String) : ℚ :=
  if sequence.length < 2 then 25 else o.tm (pyUpper sequence)

/-- thermodynamics.py `calculate_hairpin_tm`. -/
def calculate_hairpin_tm (o : Oracle) (sequence : String) : ℚ :=
  if sequence.length < 6 then 15 else o.hairpinTm (pyUpper sequence)

/-- thermodynamics.py `calculate_self_dimer_tm`. -/
def calculate_self_dimer_tm (o : Oracle) (sequence : String) : ℚ :=
  if sequence.length < 4 then 15 else o.homodimerTm (pyUpper sequence)

/-- thermodynamics.py `calculate_cross_dimer_delta_g`: returns 0.0 outright when
either input is empty or shorter than 3 bases, otherwise the primer3
heterodimer ΔG of the upper-cased sequences. -/
def calculate_cross_dimer_delta_g (o : Oracle) (seq1 seq2 : String) : ℚ :=
  if seq1.length < 3 ∨ seq2.length < 3 then 0
  else o.heterodimerDg (pyUpper seq1) (pyUpper seq2)

/-- thermodynamics.py `calculate_three_prime_cross_dimer_delta_g`. -/
def calculate_three_prime_cross_dimer_delta_g (o : Oracle) (seq1 seq2 : String)
    (length : Nat) : ℚ :=
  calculate_cross_dimer_delta_g o (pyTakeLast seq1 length) (pyTakeLast seq2 length)

/-- thermodynamics.py `calculate_three_prime_hairpin_tm` (1.2 × hairpin Tm of
the 3'-window). -/
def calculate_three_prime_hairpin_tm (o : Oracle) (sequence : String) (length : Nat) : ℚ :=
  calculate_hairpin_tm o (pyTakeLast sequence length) * (12 / 10)

/-- thermodynamics.py `calculate_three_prime_self_dimer_tm` (1.3 × self-dimer Tm
of the 3'-window). -/
def calculate_three_prime_self_dimer_tm (o : Oracle) (sequence : String) (length : Nat) : ℚ :=
  calculate_self_dimer_tm o (pyTakeLast sequence length) * (13 / 10)

/-- thermodynamics.py / models.py `calculate_gc_content` (with the empty-string
guard returning 0; counts G and C of the upper-cased sequence). -/
def calculate_gc_content (sequence : String) : ℚ :=
  if sequence.data.length = 0 then 0
  else ((pyCount (pyUpper sequence) 'G' + pyCount (pyUpper sequence) 'C' : ℚ)
          / sequence.data.length) * 100

/-! ## Claim C7: reverse-complement involution (models.py `reverse_complement`) -/

/-- Counterexample to C7 as stated for arbitrary strings: the complement lookup
upper-cases its key but the fallback keeps the raw character, so a lower-case
base is complemented to an upper-case one and the round trip does not return to
the original string. -/
theorem c7_counterexample :
    reverse_complement (reverse_complement "a") ≠ "a" ∧
    reverse_complement "a" = "T" ∧ reverse_complement "T" = "A" := by decide

theorem complementChar_involutive (c : Char)
    (h : c.toUpper ∈ (['A', 'T', 'G', 'C', 'N'] : List Char) → c = c.toUpper) :
    complementChar (complementChar c) = c := by
  by_cases hA : c.toUpper = 'A'
  · have hc : c = 'A' := by rw [h (by simp [hA]), hA]
    subst hc; decide
  · by_cases hT : c.toUpper = 'T'
    · have hc : c = 'T' := by rw [h (by simp [hT]), hT]
      subst hc; decide
    · by_cases hG : c.toUpper = 'G'
      · have hc : c = 'G' := by rw [h (by simp [hG]), hG]
        subst hc; decide
      · by_cases hC : c.toUpper = 'C'
        · have hc : c = 'C' := by rw [h (by simp [hC]), hC]
          subst hc; decide
        · by_cases hN : c.toUpper = 'N'
          · have hc : c = 'N' := by rw [h (by simp [hN]), hN]
            subst hc; decide
          · simp [complementChar, hA, hT, hG, hC, hN]

/-- C7 (amended): `reverse_complement` is an involution on every string none of
whose characters is a lower-case `a`/`t`/`g`/`c`/`n` — in particular on every
upper-case DNA sequence.  (As stated for arbitrary strings the claim is false,
see `c7_counterexample`.) -/
theorem c7_reverse_complement_involutive (s : String)
    (h : ∀ c ∈ s.data, c.toUpper ∈ (['A', 'T', 'G', 'C', 'N'] : List Char) → c = c.toUpper) :
    reverse_complement (reverse_complement s) = s := by
  have hdata : (reverse_complement (reverse_complement s)).data
      = s.data.map (fun c => complementChar (complementChar c)) := by
    simp [reverse_complement, List.map_reverse]
  have hmap : s.data.map (fun c => complementChar (complementChar c)) = s.data := by
    have := List.map_congr_left (l := s.data)
      (f := fun c => complementChar (complementChar c)) (g := fun c => c)
      (fun c hc => complementChar_involutive c (h c hc))
    simpa using this
  exact String.ext (hdata.trans hmap)

/-- Witness for the amended C7 at a concrete upper-case DNA string. -/
theorem c7_witness : reverse_complement (reverse_complement "ATGCN") = "ATGCN" :=
  c7_reverse_complement_involutive "ATGCN" (by decide)

/-! ## backend/core/validator.py: `get_validation_summary` (claim C3) -/

/-- Check names that `get_validation_summary` treats as critical. -/
def critical_check_names : List String :=
  ["threePrimeHairpin", "threePrimeSelfDimer", "threePrimeCrossDimerDg"]

/-- The `critical_failures` list built by `get_validation_summary`: names of
failed checks whose name is in `critical_check_names`. -/
def summary_critical_failures (results : List (String × ValidationResult)) : List String :=
  (results.filter fun p => !p.2.passed && critical_check_names.contains p.1).map (·.1)

/-- The `warnings` list built by `get_validation_summary`. -/
def summary_warnings (results : List (String × ValidationResult)) : List String :=
  (results.filter fun p => !p.2.passed && !critical_check_names.contains p.1).map (·.1)

/-- The `overall_status` field of validator.py `get_validation_summary`:
`'PASS' if failed_checks == 0 else 'CRITICAL' if critical_failures else 'WARNING'`.
A validation-result dict is modelled as an association list in insertion
order. -/
def get_validation_summary_status (results : List (String × ValidationResult)) : String :=
  let failed_checks := results.length - (results.filter fun p => p.2.passed).length
  if failed_checks = 0 then "PASS"
  else if summary_critical_failures results ≠ [] then "CRITICAL"
  else "WARNING"

/-- Counterexample to C3 as stated: a result map in which the (full-length)
cross-dimer check `crossDimerDg` failed is classified WARNING, not CRITICAL —
only the two 3'-secondary-structure checks and `threePrimeCrossDimerDg` are in
the critical list.  Likewise the 3'-region check `threePrimeGCClamp` only
yields WARNING. -/
theorem c3_counterexample :
    get_validation_summary_status [("crossDimerDg", ⟨false, "cross_dimer_dg"⟩)] = "WARNING" ∧
    get_validation_summary_status [("crossDimerDg", ⟨false, "cross_dimer_dg"⟩)] ≠ "CRITICAL" ∧
    get_validation_summary_status [("threePrimeGCClamp", ⟨false, "three_prime_gc_clamp"⟩)]
      = "WARNING" := by decide

theorem summary_critical_failures_eq_nil_iff (results : List (String × ValidationResult)) :
    summary_critical_failures results = [] ↔
      ¬ ∃ p ∈ results, p.2.passed = false ∧ p.1 ∈ critical_check_names := by
  rw [summary_critical_failures, List.map_eq_nil_iff, List.filter_eq_nil_iff]
  constructor
  · rintro hall ⟨p, hp, hfail, hmem⟩
    have := hall p hp
    rw [Bool.and_eq_true, Bool.not_eq_true'] at this
    exact this ⟨hfail, List.elem_iff.mpr hmem⟩
  · intro hno p hp
    rw [Bool.and_eq_true, Bool.not_eq_true']
    rintro ⟨hfail, hmem⟩
    exact hno ⟨p, hp, hfail, List.elem_iff.mp hmem⟩

theorem summary_failed_eq_zero_iff (results : List (String × ValidationResult)) :
    results.length - (results.filter fun p => p.2.passed).length = 0 ↔
      ∀ p ∈ results, p.2.passed = true := by
  rw [Nat.sub_eq_zero_iff_le]
  constructor
  · intro hle
    have heq : (results.filter fun p => p.2.passed).length = results.length :=
      Nat.le_antisymm (List.length_filter_le _ _) hle
    exact fun p hp => (List.filter_length_eq_length).mp heq p hp
  · intro hall
    have : results.filter (fun p => p.2.passed) = results :=
      List.filter_eq_self.mpr hall
    simp [this]

/-- C3 (amended): the consumer-side summary classifies PASS exactly when no
check failed; CRITICAL exactly when one of the three checks
`threePrimeHairpin`, `threePrimeSelfDimer`, `threePrimeCrossDimerDg` failed;
and WARNING exactly when some check failed but none of those three did.  In
particular a failed full-length `crossDimerDg` check (or a failed
`threePrimeGCClamp` check) alone yields WARNING, not CRITICAL. -/
theorem c3_summary_classification (results : List (String × ValidationResult)) :
    (get_validation_summary_status results = "PASS" ↔
       ∀ p ∈ results, p.2.passed = true) ∧
    (get_validation_summary_status results = "CRITICAL" ↔
       ∃ p ∈ results, p.2.passed = false ∧ p.1 ∈ critical_check_names) ∧
    (get_validation_summary_status results = "WARNING" ↔
       (∃ p ∈ results, p.2.passed = false) ∧
         ¬ ∃ p ∈ results, p.2.passed = false ∧ p.1 ∈ critical_check_names) := by
  by_cases hz : results.length - (results.filter fun p => p.2.passed).length = 0
  · have hall := (summary_failed_eq_zero_iff results).mp hz
    have hstat : get_validation_summary_status results = "PASS" := by
      rw [get_validation_summary_status]
      simp only [hz, if_pos]
    rw [hstat]
    refine ⟨⟨fun _ => hall, fun _ => rfl⟩, ?_, ?_⟩
    · constructor
      · intro h; exact absurd h (by decide)
      · rintro ⟨p, hp, hfail, -⟩
        exact absurd (hall p hp) (by simp [hfail])
    · constructor
      · intro h; exact absurd h (by decide)
      · rintro ⟨⟨p, hp, hfail⟩, -⟩
        exact absurd (hall p hp) (by simp [hfail])
  · have hb : ¬ (∀ p ∈ results, p.2.passed = true) :=
      fun hall => hz ((summary_failed_eq_zero_iff results).mpr hall)
    have hsome : ∃ p ∈ results, p.2.passed = false := by
      by_contra hno
      push_neg at hno
      refine hb fun p hp => ?_
      have := hno p hp
      cases hpv : p.2.passed
      · exact absurd hpv this
      · rfl
    by_cases hcrit : summary_critical_failures results = []
    · have hnone := (summary_critical_failures_eq_nil_iff results).mp hcrit
      have hstat : get_validation_summary_status results = "WARNING" := by
        show (if _ = 0 then "PASS" else if _ ≠ [] then "CRITICAL" else "WARNING") = "WARNING"
        rw [if_neg hz, if_neg (not_not_intro hcrit)]
      rw [hstat]
      refine ⟨?_, ?_, ⟨fun _ => ⟨hsome, hnone⟩, fun _ => rfl⟩⟩
      · constructor
        · intro h; exact absurd h (by decide)
        · intro h; exact absurd ((summary_failed_eq_zero_iff results).mpr h) hz
      · constructor
        · intro h; exact absurd h (by decide)
        · intro h; exact absurd h hnone
    · have hex : ∃ p ∈ results, p.2.passed = false ∧ p.1 ∈ critical_check_names := by
        by_contra hno
        exact hcrit ((summary_critical_failures_eq_nil_iff results).mpr hno)
      have hstat : get_validation_summary_status results = "CRITICAL" := by
        show (if _ = 0 then "PASS" else if _ ≠ [] then "CRITICAL" else "WARNING") = "CRITICAL"
        rw [if_neg hz, if_pos hcrit]
      rw [hstat]
      refine ⟨?_, ⟨fun _ => hex, fun _ => rfl⟩, ?_⟩
      · constructor
        · intro h; exact absurd h (by decide)
        · intro h; exact absurd ((summary_failed_eq_zero_iff results).mpr h) hz
      · constructor
        · intro h; exact absurd h (by decide)
        · rintro ⟨-, hno⟩
          exact absurd hex hno

/-! ## Claim C10: short-sequence cross-dimer ΔG -/

/-- validator.py `_validate_strand_pair`: the two ΔG checks on a pair of
strands. -/
def validate_strand_pair (o : Oracle) (st : ValidationSettings)
    (strand1 strand2 : Strand) : List (String × ValidationResult) :=
  let cross_dimer_dg := calculate_cross_dimer_delta_g o strand1.sequence strand2.sequence
  let three_prime_cross_dg := calculate_three_prime_cross_dimer_delta_g o
    strand1.sequence strand2.sequence st.threePrimeLength
  [("crossDimerDg",
      ⟨decide (cross_dimer_dg ≥ st.crossDimerDgMin), "cross_dimer_dg"⟩),
   ("threePrimeCrossDimerDg",
      ⟨decide (three_prime_cross_dg ≥ st.threePrimeCrossDimerDgMin),
        "three_prime_cross_dimer_dg"⟩)]

/-- C10: when either sequence of a pair is empty or shorter than 3 bases, the
cross-dimer ΔG is exactly 0, the 3'-window cross-dimer ΔG is exactly 0, and
under the default (negative) floors both strand-pair ΔG checks pass. -/
theorem c10_short_sequences_pass (o : Oracle) (s1 s2 : Strand)
    (h : s1.sequence.length < 3 ∨ s2.sequence.length < 3) :
    calculate_cross_dimer_delta_g o s1.sequence s2.sequence = 0 ∧
    calculate_three_prime_cross_dimer_delta_g o s1.sequence s2.sequence
      defaultSettings.threePrimeLength = 0 ∧
    ∀ p ∈ validate_strand_pair o defaultSettings s1 s2, p.2.passed = true := by
  have hfull : calculate_cross_dimer_delta_g o s1.sequence s2.sequence = 0 := by
    rw [calculate_cross_dimer_delta_g, if_pos h]
  have hshort : ∀ s : String, s.length < 3 → (pyTakeLast s defaultSettings.threePrimeLength).length < 3 := by
    intro s hs
    have : (pyTakeLast s defaultSettings.threePrimeLength).data.length
        = s.data.length - (s.data.length - defaultSettings.threePrimeLength) :=
      pyTakeLast_length ..
    have hlen : s.length = s.data.length := rfl
    have : (pyTakeLast s defaultSettings.threePrimeLength).length
        ≤ s.data.length := by
      rw [show (pyTakeLast s defaultSettings.threePrimeLength).length
            = (pyTakeLast s defaultSettings.threePrimeLength).data.length from rfl, this]
      omega
    omega
  have htp : calculate_three_prime_cross_dimer_delta_g o s1.sequence s2.sequence
      defaultSettings.threePrimeLength = 0 := by
    rw [calculate_three_prime_cross_dimer_delta_g, calculate_cross_dimer_delta_g, if_pos]
    rcases h with h | h
    · exact Or.inl (hshort _ h)
    · exact Or.inr (hshort _ h)
  refine ⟨hfull, htp, ?_⟩
  intro p hp
  simp only [validate_strand_pair, List.mem_cons, List.mem_singleton] at hp
  have hmin : defaultSettings.crossDimerDgMin = -5 := rfl
  have htmin : defaultSettings.threePrimeCrossDimerDgMin = -2 := rfl
  rcases hp with hp | hp
  · subst hp
    show decide (_ ≥ _) = true
    rw [decide_eq_true_eq, ge_iff_le, hfull, hmin]
    norm_num
  · rcases hp with hp | hp
    swap
    · exact absurd hp (by simp)
    subst hp
    show decide (_ ≥ _) = true
    rw [decide_eq_true_eq, ge_iff_le, htp, htmin]
    norm_num

/-- Concrete oracle used only inside witnesses. -/
def witnessOracle : Oracle :=
  ⟨fun _ => 50, fun _ => 0, fun _ => 0, fun _ _ => 0⟩

/-- Witness for C10 at a concrete short/long sequence pair. -/
theorem c10_witness :
    calculate_cross_dimer_delta_g witnessOracle
        (Strand.mk 1 "s1" [] "AB" false).sequence (Strand.mk 2 "s2" [] "ATGCATGC" false).sequence = 0 ∧
    calculate_three_prime_cross_dimer_delta_g witnessOracle
        (Strand.mk 1 "s1" [] "AB" false).sequence (Strand.mk 2 "s2" [] "ATGCATGC" false).sequence
        defaultSettings.threePrimeLength = 0 ∧
    ∀ p ∈ validate_strand_pair witnessOracle defaultSettings
        (Strand.mk 1 "s1" [] "AB" false) (Strand.mk 2 "s2" [] "ATGCATGC" false),
      p.2.passed = true :=
  c10_short_sequences_pass witnessOracle _ _ (by decide)

/-! ## backend/core/generator.py: pool sampling (claim C5) -/

/-- Model of Python `random.sample(lst, k)`: `k` draws without replacement,
each draw removing the element at a random index.  `rand` supplies the random
index choices; quantifying over `rand` covers every possible sample. -/
def randomSample (rand : Nat → Nat) : List String → Nat → List String
  | _, 0 => []
  | l, k + 1 =>
    if h : l.length = 0 then []
    else
      let i := rand k % l.length
      have hi : i < l.length := Nat.mod_lt _ (Nat.pos_of_ne_zero h)
      l.get ⟨i, hi⟩ :: randomSample rand (l.eraseIdx i) k

theorem randomSample_length (rand : Nat → Nat) :
    ∀ (k : Nat) (l : List String), k ≤ l.length → (randomSample rand l k).length = k := by
  intro k
  induction k with
  | zero => intro l _; rfl
  | succ k ih =>
      intro l hk
      have hne : ¬ l.length = 0 := by omega
      rw [randomSample, dif_neg hne]
      have hi : rand k % l.length < l.length := Nat.mod_lt _ (Nat.pos_of_ne_zero hne)
      have hlen : (l.eraseIdx (rand k % l.length)).length = l.length - 1 := by
        rw [List.length_eraseIdx, if_pos hi]
      simp only [List.length_cons]
      rw [ih _ (by omega)]

theorem randomSample_mem (rand : Nat → Nat) :
    ∀ (k : Nat) (l : List String), ∀ x ∈ randomSample rand l k, x ∈ l := by
  intro k
  induction k with
  | zero => intro l x hx; exact absurd hx (by simp [randomSample])
  | succ k ih =>
      intro l x hx
      rw [randomSample] at hx
      by_cases hne : l.length = 0
      · rw [dif_pos hne] at hx
        exact absurd hx (by simp)
      · rw [dif_neg hne] at hx
        rcases List.mem_cons.mp hx with hx | hx
        · subst hx; exact l.get_mem _ _
        · exact List.eraseIdx_subset _ _ (ih _ x hx)

theorem randomSample_nodup (rand : Nat → Nat) :
    ∀ (k : Nat) (l : List String), l.Nodup → (randomSample rand l k).Nodup := by
  intro k
  induction k with
  | zero => intro l _; simp [randomSample]
  | succ k ih =>
      intro l hnd
      rw [randomSample]
      by_cases hne : l.length = 0
      · rw [dif_pos hne]; exact List.nodup_nil
      · rw [dif_neg hne]
        have hi : rand k % l.length < l.length := Nat.mod_lt _ (Nat.pos_of_ne_zero hne)
        refine List.nodup_cons.mpr ⟨?_, ih _ (hnd.eraseIdx _)⟩
        intro hmem
        have hmem' : l.get ⟨rand k % l.length, hi⟩ ∈ l.eraseIdx (rand k % l.length) :=
          randomSample_mem rand k _ _ hmem
        obtain ⟨j, hj, hje⟩ := List.mem_iff_getElem.mp hmem'
        rw [List.getElem_eraseIdx] at hje
        split at hje
        · have := (List.Nodup.getElem_inj_iff hnd).mp hje
          omega
        · have hj2 : j + 1 < l.length := by
            have := hj
            rw [List.length_eraseIdx] at this
            split at this <;> omega
          have := (List.Nodup.getElem_inj_iff hnd).mp hje
          omega

/-- generator.py `get_sequences_from_redis(length, count, exclude)`.  `pool` is
the member list of the Redis set `sequences:length:{length}`; the function
filters out excluded sequences and random-samples
`min(count, len(available))` of the remainder. -/
def get_sequences_from_redis (pool : List String) (count : Nat) (exclude : List String)
    (rand : Nat → Nat) : List String :=
  if pool.isEmpty then []
  else
    let available := pool.filter fun s => !exclude.contains s
    if available.isEmpty then []
    else randomSample rand available (min count available.length)

/-- C5: `sample` returns exactly `min(count, |pool \ exclude|)` sequences —
hence at most `count`, and exactly the leftover count when the pool minus the
exclusion set is smaller than `count` (never fabricating) — each drawn from the
pool, none excluded, and (pool being a duplicate-free Redis set) without
replacement. -/
theorem c5_sample_contract (pool : List String) (count : Nat) (exclude : List String)
    (rand : Nat → Nat) (hpool : pool.Nodup) :
    (get_sequences_from_redis pool count exclude rand).length
        = min count (pool.filter fun s => !exclude.contains s).length ∧
    (∀ s ∈ get_sequences_from_redis pool count exclude rand, s ∈ pool ∧ s ∉ exclude) ∧
    (get_sequences_from_redis pool count exclude rand).Nodup := by
  rw [get_sequences_from_redis]
  by_cases hp : pool.isEmpty
  · have : pool = [] := List.isEmpty_iff.mp hp
    subst this
    simp
  · rw [if_neg hp]
    by_cases ha : (pool.filter fun s => !exclude.contains s).isEmpty
    · rw [if_pos ha]
      rw [List.isEmpty_iff] at ha
      refine ⟨?_, ?_, List.nodup_nil⟩
      · rw [ha]; simp
      · intro s hs; exact absurd hs (by simp)
    · rw [if_neg ha]
      have hnd : (pool.filter fun s => !exclude.contains s).Nodup := hpool.filter _
      refine ⟨?_, ?_, randomSample_nodup rand _ _ hnd⟩
      · exact randomSample_length rand _ _ (Nat.min_le_right _ _)
      · intro s hs
        have hmem := randomSample_mem rand _ _ s hs
        have hsplit := List.mem_filter.mp hmem
        have h2 := hsplit.2
        simp at h2
        exact ⟨hsplit.1, h2⟩

/-- Witness for C5 at a concrete pool, count, and exclusion set. -/
theorem c5_witness :
    (get_sequences_from_redis ["AA", "BB", "CC"] 5 ["BB"] (fun _ => 0)).length
        = min 5 ((["AA", "BB", "CC"] : List String).filter fun s => !(["BB"] : List String).contains s).length ∧
    (∀ s ∈ get_sequences_from_redis ["AA", "BB", "CC"] 5 ["BB"] (fun _ => 0),
        s ∈ (["AA", "BB", "CC"] : List String) ∧ s ∉ (["BB"] : List String)) ∧
    (get_sequences_from_redis ["AA", "BB", "CC"] 5 ["BB"] (fun _ => 0)).Nodup :=
  c5_sample_contract ["AA", "BB", "CC"] 5 ["BB"] (fun _ => 0) (by decide)

/-! ## backend/core/generator.py: cross-validated assignment (claims C1, C2) -/

/-- generator.py `check_cross_dimer_interactions` (boolean component): the
candidate passes iff, against every existing sequence, the full-length
cross-dimer ΔG is not below `crossDimerDgMin` (−5) and the 3'-window
cross-dimer ΔG is not below `threePrimeCrossDimerDgMin` (−2), with
default-constructed `ValidationSettings()` as in the source.  The Python
function short-circuits with a reason string; only the boolean is modelled. -/
def check_cross_dimer_interactions (o : Oracle) (new_sequence : String)
    (existing : List String) : Bool :=
  existing.all fun existing_seq =>
    !decide (calculate_cross_dimer_delta_g o new_sequence existing_seq
              < defaultSettings.crossDimerDgMin) &&
    !decide (calculate_three_prime_cross_dimer_delta_g o new_sequence existing_seq
              defaultSettings.threePrimeLength < defaultSettings.threePrimeCrossDimerDgMin)

/-- One step of the fully-orthogonal search, recorded for auditing: a draw is
either committed or rejected, and `usedAfter` is the session's used-sequence
set immediately after the step (the code adds the candidate to
`self.used_sequences` in both branches). -/
structure DEvent where
  isCommit : Bool
  seq : String
  usedAfter : List String
deriving DecidableEq, Repr

/-- Sequences committed in a trace, in order. -/
def commitsOf (evs : List DEvent) : List String :=
  (evs.filter fun e => e.isCommit).map fun e => e.seq

/-- The per-domain attempt loop of `_design_with_cross_validation`
(`for attempt in range(max_attempts)`): draw one sequence excluding the used
set; stop with failure if the pool is exhausted; reject-and-mark-used on a
failed cross-dimer check; commit-and-mark-used on success.  `fuel` is the
remaining attempt budget, `t` indexes the random stream, `checkFn` is the
cross-dimer check against the already-committed sequences (the code skips the
call when none are committed yet, which equals the vacuous `all`-pass).
Returns (committed sequence if any, used set, event trace). -/
def assignAttempts (pool : List String) (checkFn : String → Bool) (rand : Nat → Nat) :
    Nat → Nat → List String → Option String × List String × List DEvent
  | 0, _, used => (none, used, [])
  | fuel + 1, t, used =>
    match get_sequences_from_redis pool 1 used (fun _ => rand t) with
    | [] => (none, used, [])
    | candidate :: _ =>
      if checkFn candidate then
        (some candidate, candidate :: used, [⟨true, candidate, candidate :: used⟩])
      else
        let r := assignAttempts pool checkFn rand fuel (t + 1) (candidate :: used)
        (r.1, r.2.1, ⟨false, candidate, candidate :: used⟩ :: r.2.2)

/-- The outer domain loop of `_design_with_cross_validation`, threading the
used set and the committed (`assigned_sequences`) list; `max_attempts = 50` per
domain as in the source.  Returns (success, updated domains, used set, trace).
On failure the remaining domains are returned unassigned and the call reports
failure. -/
def designGo (pool : Nat → List String) (o : Oracle) (rand : Nat → Nat) :
    List Domain → Nat → List String → List String →
      Bool × List Domain × List String × List DEvent
  | [], _, used, _ => (true, [], used, [])
  | d :: rest, t, used, assigned =>
    match assignAttempts (pool d.length)
        (fun c => check_cross_dimer_interactions o c assigned) rand 50 t used with
    | (none, used1, evs) => (false, d :: rest, used1, evs)
    | (some s, used1, evs) =>
      let r := designGo pool o rand rest (t + 50) used1 (assigned ++ [s])
      (r.1, { d with sequence := s } :: r.2.1, r.2.2.1, evs ++ r.2.2.2)

/-- generator.py `_design_with_cross_validation`, started on a fresh session
(the route constructs a fresh `SequenceGenerator`, whose `used_sequences`
starts empty, for every request). -/
def design_with_cross_validation (pool : Nat → List String) (o : Oracle)
    (rand : Nat → Nat) (domains : List Domain) :
    Bool × List Domain × List String × List DEvent :=
  designGo pool o rand domains 0 [] []

/-- generator.py `has_complement_domains`. -/
def has_complement_domains (domains : List Domain) : Bool :=
  domains.any fun d => d.isComplement || d.complementOf.isSome

/-- First index of a domain whose `complementOf` equals `did`
(`next((d for d in domains if d.complementOf == domain.id), None)`). -/
def firstComplementIdx : List Domain → Int → Option Nat
  | [], _ => none
  | d :: rest, did =>
    if d.complementOf = some did then some 0
    else (firstComplementIdx rest did).map (· + 1)

/-- The complement-update block of `_design_with_complements`: after a forward
domain with identity `did` is assigned `s`, the first domain whose
`complementOf` equals `did` (if any) gets sequence `reverse_complement s`. -/
def complStep (doms1 : List Domain) (did : Int) (s : String) : List Domain :=
  match firstComplementIdx doms1 did with
  | none => doms1
  | some j =>
    match doms1[j]? with
    | none => doms1
    | some c => doms1.set j { c with sequence := reverse_complement s }

/-- The loop of `_design_with_complements` over the forward domains, by
position in the (mutated-in-place) domain list: draw one sequence excluding the
used set, commit it, set the first linked complement domain's sequence to its
reverse complement, mark the draw used.  A failed draw aborts the whole call. -/
def complGo (pool : Nat → List String) (rand : Nat → Nat) :
    List Nat → Nat → List Domain → List String → Bool × List Domain × List String
  | [], _, doms, used => (true, doms, used)
  | i :: rest, t, doms, used =>
    match doms[i]? with
    | none => (false, doms, used)
    | some d =>
      match get_sequences_from_redis (pool d.length) 1 used (fun _ => rand t) with
      | [] => (false, doms, used)
      | s :: _ =>
        complGo pool rand rest (t + 1)
          (complStep (doms.set i { d with sequence := s }) d.id s) (s :: used)

/-- generator.py `_design_with_complements`: iterate over the forward
(non-complement) domains of the input list, on a fresh session. -/
def design_with_complements (pool : Nat → List String) (rand : Nat → Nat)
    (domains : List Domain) : Bool × List Domain × List String :=
  let fwd := (List.range domains.length).filter fun i =>
    match domains[i]? with
    | some d => !d.isComplement
    | none => false
  complGo pool rand fwd 0 domains []

/-- generator.py `design_domain_sequences`: mode selection on complement
relationships. -/
def design_domain_sequences (pool : Nat → List String) (o : Oracle) (rand : Nat → Nat)
    (domains : List Domain) : Bool × List Domain × List String :=
  if has_complement_domains domains then design_with_complements pool rand domains
  else
    let r := design_with_cross_validation pool o rand domains
    (r.1, r.2.1, r.2.2.1)

/-! ## backend/api/routes.py: the `/design/generate` route (claim C2) -/

/-- Outcome of the `generate_design` route up to and including domain-sequence
design (the strand-building and validation part of the route is not involved in
any claim; on a design failure the route returns before reaching it). -/
inductive DesignOutcome
  | availabilityError (missing : List Nat)
  | designError (error details : String)
  | success (designed : List Domain)
deriving DecidableEq, Repr

/-- The constant error payload routes.py returns (HTTP 400) when
`design_domain_sequences` fails. -/
def design_failure_error : String := "Failed to design domain sequences"

/-- The constant `details` field of that payload. -/
def design_failure_details : String :=
  "Sequence generation failed - may be cross-dimer conflicts"

/-- routes.py `generate_design`, domain-design part: availability check over
the required lengths (`scard > 0` becomes pool-list nonemptiness), then design
of the domains without a fixed sequence; a design failure yields the constant
error payload. -/
def generate_design (pool : Nat → List String) (o : Oracle) (rand : Nat → Nat)
    (domains : List Domain) : DesignOutcome :=
  let required_lengths :=
    (domains.filter fun d => !d.isComplement && d.sequence == "").map Domain.length
  let missing_lengths := required_lengths.filter fun n => (pool n).isEmpty
  if !missing_lengths.isEmpty then .availabilityError missing_lengths
  else
    let domains_to_design := domains.filter fun d => d.sequence == ""
    if domains_to_design.isEmpty then .success domains
    else
      let r := design_domain_sequences pool o rand domains_to_design
      if r.1 then .success r.2.1
      else .designError design_failure_error design_failure_details

/-- Any sequence returned by a pool draw is in the pool and not excluded
(exclusion-awareness of `sample`, used by every design mode). -/
theorem get_sequences_mem (pool : List String) (count : Nat) (exclude : List String)
    (rand : Nat → Nat) : ∀ s ∈ get_sequences_from_redis pool count exclude rand,
      s ∈ pool ∧ s ∉ exclude := by
  intro s hs
  rw [get_sequences_from_redis] at hs
  by_cases hp : pool.isEmpty
  · rw [if_pos hp] at hs; exact absurd hs (by simp)
  · rw [if_neg hp] at hs
    by_cases ha : (pool.filter fun s => !exclude.contains s).isEmpty
    · rw [if_pos ha] at hs; exact absurd hs (by simp)
    · rw [if_neg ha] at hs
      have hmem := randomSample_mem rand _ _ s hs
      have hsplit := List.mem_filter.mp hmem
      have h2 := hsplit.2
      simp at h2
      exact ⟨hsplit.1, h2⟩

/-- The evolution of the session's used set along a trace: each event's
`usedAfter` extends the preceding used set with exactly the event's (previously
unused) sequence, ending in the final used set. -/
def usedChain : List String → List DEvent → List String → Prop
  | u0, [], uf => uf = u0
  | u0, e :: evs, uf => e.usedAfter = e.seq :: u0 ∧ e.seq ∉ u0 ∧ usedChain e.usedAfter evs uf

theorem usedChain_append (a : List DEvent) :
    ∀ (u0 uf : List String) (b : List DEvent),
      usedChain u0 (a ++ b) uf ↔ ∃ um, usedChain u0 a um ∧ usedChain um b uf := by
  induction a with
  | nil =>
      intro u0 uf b
      constructor
      · intro h; exact ⟨u0, rfl, h⟩
      · rintro ⟨um, hum, hb⟩
        rw [show um = u0 from hum] at hb
        exact hb
  | cons e a ih =>
      intro u0 uf b
      constructor
      · rintro ⟨h1, h2, h3⟩
        obtain ⟨um, hum, hb⟩ := (ih _ _ _).mp h3
        exact ⟨um, ⟨h1, h2, hum⟩, hb⟩
      · rintro ⟨um, ⟨h1, h2, ha⟩, hb⟩
        exact ⟨h1, h2, (ih _ _ _).mpr ⟨um, ha, hb⟩⟩

theorem usedChain_fresh :
    ∀ (evs : List DEvent) (u0 uf : List String), usedChain u0 evs uf →
      ∀ e ∈ evs, e.seq ∉ u0 := by
  intro evs
  induction evs with
  | nil => intro u0 uf _ e he; exact absurd he (by simp)
  | cons e0 evs ih =>
      rintro u0 uf ⟨h1, h2, h3⟩ e he
      rcases List.mem_cons.mp he with he | he
      · subst he; exact h2
      · intro hmem
        exact ih _ _ h3 e he (by rw [h1]; exact List.mem_cons_of_mem _ hmem)

theorem usedChain_subset :
    ∀ (evs : List DEvent) (u0 uf : List String), usedChain u0 evs uf →
      ∀ x ∈ u0, x ∈ uf := by
  intro evs
  induction evs with
  | nil => intro u0 uf h x hx; rw [h]; exact hx
  | cons e0 evs ih =>
      rintro u0 uf ⟨h1, _, h3⟩ x hx
      exact ih _ _ h3 x (by rw [h1]; exact List.mem_cons_of_mem _ hx)

/-- The local picture of the used set at any event of a trace: it contains the
initial used set, the event's own sequence, and the sequences of all earlier
events; sequences of later events are not yet in it; and it is contained in the
final used set. -/
theorem usedChain_split :
    ∀ (l₁ : List DEvent) (u0 uf : List String) (evs : List DEvent) (e : DEvent)
      (l₂ : List DEvent), usedChain u0 evs uf → evs = l₁ ++ e :: l₂ →
      (∀ x ∈ u0, x ∈ e.usedAfter) ∧ e.seq ∈ e.usedAfter ∧
      (∀ e' ∈ l₁, e'.seq ∈ e.usedAfter) ∧ (∀ e' ∈ l₂, e'.seq ∉ e.usedAfter) ∧
      (∀ x ∈ e.usedAfter, x ∈ uf) := by
  intro l₁
  induction l₁ with
  | nil =>
      intro u0 uf evs e l₂ hchain heq
      subst heq
      obtain ⟨h1, h2, h3⟩ := hchain
      refine ⟨?_, ?_, by simp, ?_, ?_⟩
      · intro x hx; rw [h1]; exact List.mem_cons_of_mem _ hx
      · rw [h1]; exact List.mem_cons_self _ _
      · exact usedChain_fresh _ _ _ h3
      · exact usedChain_subset _ _ _ h3
  | cons e0 l₁ ih =>
      intro u0 uf evs e l₂ hchain heq
      subst heq
      obtain ⟨h1, h2, h3⟩ := hchain
      obtain ⟨ha, hb, hc, hd, he⟩ := ih _ _ _ e l₂ h3 rfl
      refine ⟨?_, hb, ?_, hd, he⟩
      · intro x hx; exact ha x (by rw [h1]; exact List.mem_cons_of_mem _ hx)
      · intro e' he'
        rcases List.mem_cons.mp he' with he' | he'
        · subst he'; exact ha e'.seq (by rw [h1]; exact List.mem_cons_self _ _)
        · exact hc e' he'

theorem commitsOf_append (a b : List DEvent) :
    commitsOf (a ++ b) = commitsOf a ++ commitsOf b := by
  simp [commitsOf]

theorem commitsOf_cons_false (e0 : DEvent) (h : e0.isCommit = false) (l : List DEvent) :
    commitsOf (e0 :: l) = commitsOf l := by
  simp [commitsOf, List.filter_cons, h]

/-- The attempt loop builds a `usedChain` from its initial used set to its
returned used set. -/
theorem assignAttempts_chain (pool : List String) (checkFn : String → Bool)
    (rand : Nat → Nat) :
    ∀ (fuel t : Nat) (used : List String),
      usedChain used (assignAttempts pool checkFn rand fuel t used).2.2
        (assignAttempts pool checkFn rand fuel t used).2.1 := by
  intro fuel
  induction fuel with
  | zero => intro t used; exact rfl
  | succ fuel ih =>
      intro t used
      rw [assignAttempts]
      cases hdraw : get_sequences_from_redis pool 1 used (fun _ => rand t) with
      | nil => exact rfl
      | cons candidate tail =>
          have hfresh : candidate ∉ used :=
            (get_sequences_mem pool 1 used (fun _ => rand t) candidate
              (by rw [hdraw]; exact List.mem_cons_self _ _)).2
          by_cases hc : checkFn candidate
          · simp only [hc, if_pos]
            exact ⟨rfl, hfresh, rfl⟩
          · simp only [hc, if_neg, Bool.false_eq_true, if_false]
            exact ⟨rfl, hfresh, ih (t + 1) (candidate :: used)⟩

/-- Every event of the attempt loop records the check's verdict: committed iff
the cross-dimer check passed on its sequence. -/
theorem assignAttempts_events_check (pool : List String) (checkFn : String → Bool)
    (rand : Nat → Nat) :
    ∀ (fuel t : Nat) (used : List String),
      ∀ e ∈ (assignAttempts pool checkFn rand fuel t used).2.2,
        e.isCommit = checkFn e.seq := by
  intro fuel
  induction fuel with
  | zero => intro t used e he; exact absurd he (by simp [assignAttempts])
  | succ fuel ih =>
      intro t used e he
      rw [assignAttempts] at he
      cases hdraw : get_sequences_from_redis pool 1 used (fun _ => rand t) with
      | nil => rw [hdraw] at he; exact absurd he (by simp)
      | cons candidate tail =>
          rw [hdraw] at he
          by_cases hc : checkFn candidate
          · simp only [hc, if_pos] at he
            rcases List.mem_singleton.mp he with he
            subst he
            simp [hc]
          · simp only [hc, if_neg, Bool.false_eq_true, if_false] at he
            rcases List.mem_cons.mp he with he | he
            · subst he; simp [hc]
            · exact ih (t + 1) (candidate :: used) e he

/-- In the attempt loop no event strictly before another is a commit (the loop
stops at the first commit), so the committed-so-far list is unchanged across
any proper prefix of the loop's trace. -/
theorem assignAttempts_prefix_commits (pool : List String) (checkFn : String → Bool)
    (rand : Nat → Nat) :
    ∀ (fuel t : Nat) (used : List String) (l₁ : List DEvent) (e : DEvent)
      (l₂ : List DEvent),
      (assignAttempts pool checkFn rand fuel t used).2.2 = l₁ ++ e :: l₂ →
      commitsOf l₁ = [] := by
  intro fuel
  induction fuel with
  | zero =>
      intro t used l₁ e l₂ h
      exact absurd h.symm (by simp [assignAttempts])
  | succ fuel ih =>
      intro t used l₁ e l₂ h
      rw [assignAttempts] at h
      cases hdraw : get_sequences_from_redis pool 1 used (fun _ => rand t) with
      | nil => rw [hdraw] at h; exact absurd h.symm (by simp)
      | cons candidate tail =>
          rw [hdraw] at h
          by_cases hc : checkFn candidate
          · simp only [hc, if_pos] at h
            have : l₁ = [] := by
              cases l₁ with
              | nil => rfl
              | cons x xs =>
                  rw [List.cons_append] at h
                  injection h with h1 h2
                  exact absurd h2.symm (by simp)
            subst this; rfl
          · simp only [hc, if_neg, Bool.false_eq_true, if_false] at h
            cases l₁ with
            | nil => rfl
            | cons x xs =>
                rw [List.cons_append] at h
                injection h with h1 h2
                have hxs := ih (t + 1) (candidate :: used) xs e l₂ h2
                rw [← h1, commitsOf_cons_false _ rfl, hxs]

/-- The attempt loop's trace commits exactly the returned sequence (one commit
on success, none on failure). -/
theorem assignAttempts_commits (pool : List String) (checkFn : String → Bool)
    (rand : Nat → Nat) :
    ∀ (fuel t : Nat) (used : List String),
      commitsOf (assignAttempts pool checkFn rand fuel t used).2.2
        = (assignAttempts pool checkFn rand fuel t used).1.toList := by
  intro fuel
  induction fuel with
  | zero => intro t used; rfl
  | succ fuel ih =>
      intro t used
      rw [assignAttempts]
      cases hdraw : get_sequences_from_redis pool 1 used (fun _ => rand t) with
      | nil => rfl
      | cons candidate tail =>
          by_cases hc : checkFn candidate
          · simp [hc, commitsOf]
          · simp only [hc, if_neg, Bool.false_eq_true, if_false]
            rw [commitsOf_cons_false _ rfl]
            exact ih (t + 1) (candidate :: used)

/-- The whole fully-orthogonal design call builds a `usedChain` from the empty
session to its returned used set. -/
theorem designGo_chain (pool : Nat → List String) (o : Oracle) (rand : Nat → Nat) :
    ∀ (doms : List Domain) (t : Nat) (used assigned : List String),
      usedChain used (designGo pool o rand doms t used assigned).2.2.2
        (designGo pool o rand doms t used assigned).2.2.1 := by
  intro doms
  induction doms with
  | nil => intro t used assigned; exact rfl
  | cons d rest ih =>
      intro t used assigned
      rw [designGo]
      cases hatt : assignAttempts (pool d.length)
          (fun c => check_cross_dimer_interactions o c assigned) rand 50 t used with
      | mk res r2 =>
          obtain ⟨used1, evs⟩ := r2
          have hch := assignAttempts_chain (pool d.length)
            (fun c => check_cross_dimer_interactions o c assigned) rand 50 t used
          rw [hatt] at hch
          cases res with
          | none => exact hch
          | some s =>
              refine (usedChain_append evs _ _ _).mpr ⟨used1, hch, ?_⟩
              exact ih (t + 50) used1 (assigned ++ [s])

/-- Every event of the fully-orthogonal design records the cross-dimer check's
verdict against exactly the sequences committed before it. -/
theorem designGo_commit_check (pool : Nat → List String) (o : Oracle) (rand : Nat → Nat) :
    ∀ (doms : List Domain) (t : Nat) (used assigned : List String)
      (l₁ : List DEvent) (e : DEvent) (l₂ : List DEvent),
      (designGo pool o rand doms t used assigned).2.2.2 = l₁ ++ e :: l₂ →
      e.isCommit = check_cross_dimer_interactions o e.seq (assigned ++ commitsOf l₁) := by
  intro doms
  induction doms with
  | nil =>
      intro t used assigned l₁ e l₂ h
      exact absurd h.symm (by simp [designGo])
  | cons d rest ih =>
      intro t used assigned l₁ e l₂ h
      rw [designGo] at h
      cases hatt : assignAttempts (pool d.length)
          (fun c => check_cross_dimer_interactions o c assigned) rand 50 t used with
      | mk res r2 =>
          obtain ⟨used1, evs⟩ := r2
          rw [hatt] at h
          cases res with
          | none =>
              simp only at h
              have hcheck := assignAttempts_events_check (pool d.length)
                (fun c => check_cross_dimer_interactions o c assigned) rand 50 t used e
                (by rw [hatt, h]; exact List.mem_append_right _ (List.mem_cons_self _ _))
              have hpre := assignAttempts_prefix_commits (pool d.length)
                (fun c => check_cross_dimer_interactions o c assigned) rand 50 t used l₁ e l₂
                (by rw [hatt]; exact h)
              rw [hcheck, hpre]
              simp
          | some s =>
              simp only at h
              have hcommits : commitsOf evs = [s] := by
                have := assignAttempts_commits (pool d.length)
                  (fun c => check_cross_dimer_interactions o c assigned) rand 50 t used
                rw [hatt] at this
                exact this
              rcases List.append_eq_append_iff.mp h with ⟨a', ha1, ha2⟩ | ⟨c', hc1, hc2⟩
              · -- the split point lies in the recursive trace
                have := ih (t + 50) used1 (assigned ++ [s]) a' e l₂ ha2
                rw [this, ha1, commitsOf_append, hcommits]
                simp
              · cases c' with
                | nil =>
                    have htr : (designGo pool o rand rest (t + 50) used1 (assigned ++ [s])).2.2.2
                        = e :: l₂ := by simpa using hc2.symm
                    have hl₁ : l₁ = evs := by simpa using hc1.symm
                    have := ih (t + 50) used1 (assigned ++ [s]) [] e l₂ (by rw [htr]; rfl)
                    rw [this, hl₁, hcommits]
                    simp [commitsOf]
                | cons e'' c''' =>
                    injection hc2 with he1 he2
                    subst he1
                    have hcheck := assignAttempts_events_check (pool d.length)
                      (fun c => check_cross_dimer_interactions o c assigned) rand 50 t used e
                      (by rw [hatt, hc1]; exact List.mem_append_right _ (List.mem_cons_self _ _))
                    have hpre := assignAttempts_prefix_commits (pool d.length)
                      (fun c => check_cross_dimer_interactions o c assigned) rand 50 t used
                      l₁ e c''' (by rw [hatt]; exact hc1)
                    rw [hcheck, hpre]
                    simp

/-- C1: audit of the fully-orthogonal assignment, over every pool content,
oracle behaviour, and randomness.  At every step (split of the trace around an
event `e`): the drawn candidate is in the used set immediately after its step
(whether rejected or committed); it is committed exactly when the cross-dimer
check (full-length and 3'-window, default floors) passes against every
already-committed sequence — so the first passing draw is committed and marked
used, and each failing draw is marked used; a rejected candidate's sequence is
never committed by any later event of the same call; all sequences committed up
to a step are in that step's used set; and every committed sequence is in the
final used set. -/
theorem mem_commitsOf (l : List DEvent) (s : String) :
    s ∈ commitsOf l ↔ ∃ e ∈ l, e.isCommit = true ∧ e.seq = s := by
  constructor
  · intro hs
    obtain ⟨e, he, rfl⟩ := List.mem_map.mp hs
    have := List.mem_filter.mp he
    exact ⟨e, this.1, this.2, rfl⟩
  · rintro ⟨e, he, hc, rfl⟩
    exact List.mem_map.mpr ⟨e, List.mem_filter.mpr ⟨he, hc⟩, rfl⟩

theorem c1_orthogonal_used_invariant (pool : Nat → List String) (o : Oracle)
    (rand : Nat → Nat) (domains : List Domain) (l₁ : List DEvent) (e : DEvent)
    (l₂ : List DEvent)
    (hsplit : (design_with_cross_validation pool o rand domains).2.2.2 = l₁ ++ e :: l₂) :
    e.seq ∈ e.usedAfter ∧
    e.isCommit = check_cross_dimer_interactions o e.seq (commitsOf l₁) ∧
    (e.isCommit = false → ∀ e' ∈ l₂, e'.isCommit = true → e'.seq ≠ e.seq) ∧
    (∀ s ∈ commitsOf (l₁ ++ [e]), s ∈ e.usedAfter) ∧
    (∀ s ∈ commitsOf (l₁ ++ e :: l₂),
        s ∈ (design_with_cross_validation pool o rand domains).2.2.1) := by
  have hchain := designGo_chain pool o rand domains 0 [] []
  have hchain' : usedChain [] (l₁ ++ e :: l₂)
      (design_with_cross_validation pool o rand domains).2.2.1 := by
    rw [← hsplit]; exact hchain
  obtain ⟨-, hself, hpast, hfuture, hfinal⟩ :=
    usedChain_split l₁ [] _ _ e l₂ hchain' rfl
  have hcheck := designGo_commit_check pool o rand domains 0 [] [] l₁ e l₂ hsplit
  refine ⟨hself, by simpa using hcheck, ?_, ?_, ?_⟩
  · intro _ e' he' _ heq
    exact hfuture e' he' (heq ▸ hself)
  · intro s hs
    rw [commitsOf_append] at hs
    rcases List.mem_append.mp hs with hs | hs
    · obtain ⟨e', he', -, rfl⟩ := (mem_commitsOf _ _).mp hs
      exact hpast e' he'
    · obtain ⟨e', he', -, rfl⟩ := (mem_commitsOf _ _).mp hs
      rcases List.mem_singleton.mp he' with rfl
      exact hself
  · intro s hs
    obtain ⟨e', he', -, rfl⟩ := (mem_commitsOf _ _).mp hs
    obtain ⟨s', t', hst⟩ := List.append_of_mem he'
    have hchain'' : usedChain [] (s' ++ e' :: t')
        (design_with_cross_validation pool o rand domains).2.2.1 := by
      rw [← hst]; exact hchain'
    obtain ⟨-, hself', -, -, hfinal'⟩ :=
      usedChain_split s' [] _ _ e' t' hchain'' rfl
    exact hfinal' e'.seq hself'

/-- Witness for C1 at a concrete two-domain run (both draws commit). -/
theorem c1_witness :
    ((⟨true, "AAA", ["AAA"]⟩ : DEvent).seq ∈ (⟨true, "AAA", ["AAA"]⟩ : DEvent).usedAfter ∧
     (⟨true, "AAA", ["AAA"]⟩ : DEvent).isCommit
        = check_cross_dimer_interactions witnessOracle
            (⟨true, "AAA", ["AAA"]⟩ : DEvent).seq (commitsOf []) ∧
     ((⟨true, "AAA", ["AAA"]⟩ : DEvent).isCommit = false →
        ∀ e' ∈ [(⟨true, "TTT", ["TTT", "AAA"]⟩ : DEvent)], e'.isCommit = true →
          e'.seq ≠ (⟨true, "AAA", ["AAA"]⟩ : DEvent).seq) ∧
     (∀ s ∈ commitsOf ([] ++ [(⟨true, "AAA", ["AAA"]⟩ : DEvent)]),
        s ∈ (⟨true, "AAA", ["AAA"]⟩ : DEvent).usedAfter) ∧
     (∀ s ∈ commitsOf ([] ++ (⟨true, "AAA", ["AAA"]⟩ : DEvent)
            :: [(⟨true, "TTT", ["TTT", "AAA"]⟩ : DEvent)]),
        s ∈ (design_with_cross_validation (fun _ => ["AAA", "TTT"]) witnessOracle
              (fun _ => 0) [⟨1, "alpha", 3, "", "binding", false, none⟩,
                            ⟨2, "beta", 3, "", "binding", false, none⟩]).2.2.1)) :=
  c1_orthogonal_used_invariant (fun _ => ["AAA", "TTT"]) witnessOracle (fun _ => 0)
    [⟨1, "alpha", 3, "", "binding", false, none⟩, ⟨2, "beta", 3, "", "binding", false, none⟩]
    [] ⟨true, "AAA", ["AAA"]⟩ [⟨true, "TTT", ["TTT", "AAA"]⟩] (by decide)

/-! ## Claim C2: exhausted attempts and the user-visible payload -/

/-- A pool of 51 distinct three-character sequences at every length (enough for
one commit plus 50 distinct rejected draws). -/
def pool51 : Nat → List String := fun _ =>
  (List.range 51).map fun i =>
    String.mk [Char.ofNat (65 + i), Char.ofNat (65 + i), Char.ofNat (65 + i)]

/-- An oracle whose heterodimer ΔG is always −10 kcal/mol, making every
cross-dimer check fail. -/
def oNeg : Oracle := ⟨fun _ => 0, fun _ => 0, fun _ => 0, fun _ _ => -10⟩

/-- A first test domain. -/
def domA : Domain := ⟨1, "alpha", 3, "", "binding", false, none⟩

/-- A second test domain. -/
def domB : Domain := ⟨2, "beta", 3, "", "binding", false, none⟩

/-- Counterexample to C2 as stated: a concrete run in which domain `beta`
(length 3) exhausts all 50 attempts.  The call does fail, but the user-visible
payload is the fixed generic pair of strings from routes.py: it names neither
the domain (`beta`), nor its length (no digit `3` anywhere), nor the attempt
count (`50`) — those appear only in the server log. -/
theorem c2_counterexample :
    generate_design pool51 oNeg (fun _ => 0) [domA, domB] =
      .designError "Failed to design domain sequences"
        "Sequence generation failed - may be cross-dimer conflicts" ∧
    pyIn "beta" "Failed to design domain sequences" = false ∧
    pyIn "beta" "Sequence generation failed - may be cross-dimer conflicts" = false ∧
    pyIn "3" "Failed to design domain sequences" = false ∧
    pyIn "3" "Sequence generation failed - may be cross-dimer conflicts" = false ∧
    pyIn "50" "Failed to design domain sequences" = false ∧
    pyIn "50" "Sequence generation failed - may be cross-dimer conflicts" = false := by
  decide

/-- C2 (amended): when domain design fails — in particular when some domain
exhausts its 50 attempts — and the availability pre-check passed with at least
one domain to design, the route call fails with HTTP 400 carrying the constant
generic payload `design_failure_error`/`design_failure_details` (which does not
name the failing domain, its length, or the attempt count: those are only
logged), and no assignment is returned to the caller. -/
theorem c2_design_failure_generic (pool : Nat → List String) (o : Oracle)
    (rand : Nat → Nat) (domains : List Domain)
    (h1 : ((((domains.filter fun d => !d.isComplement && d.sequence == "").map
              Domain.length).filter fun n => (pool n).isEmpty).isEmpty) = true)
    (h2 : (domains.filter fun d => d.sequence == "").isEmpty = false)
    (h3 : (design_domain_sequences pool o rand
            (domains.filter fun d => d.sequence == "")).1 = false) :
    generate_design pool o rand domains
      = .designError design_failure_error design_failure_details := by
  simp only [generate_design, h1, h2, h3, Bool.not_true, Bool.false_eq_true, if_false,
    ite_false]

/-- Witness for the amended C2 at the concrete exhausting run. -/
theorem c2_witness :
    generate_design pool51 oNeg (fun _ => 0) [domA, domB]
      = .designError design_failure_error design_failure_details :=
  c2_design_failure_generic pool51 oNeg (fun _ => 0) [domA, domB]
    (by decide) (by decide) (by decide)

/-! ## Claim C4: complement-tolerant assignment -/

/-- A domain with its sequence field cleared.  Two domains with equal
`stripSeq` agree on every field except the assigned sequence; the complement
loop only ever rewrites sequence fields, so `stripSeq` is invariant along it. -/
def stripSeq (d : Domain) : Domain := { d with sequence := "" }

/-- Well-formedness hypothesis for the complement mode: any domain carrying a
`complementOf` back-reference is marked `isComplement` (i.e. complement targets
are not themselves forward domains). -/
def complementSafe (doms : List Domain) : Prop :=
  ∀ d ∈ doms, d.complementOf.isSome → d.isComplement = true

theorem stripSeq_eq_fields {a b : Domain} (h : stripSeq a = stripSeq b) :
    a.id = b.id ∧ a.length = b.length ∧ a.isComplement = b.isComplement ∧
      a.complementOf = b.complementOf := by
  cases a; cases b
  simp only [stripSeq, Domain.mk.injEq] at h
  obtain ⟨h1, h2, h3, h4, h5, h6, h7⟩ := h
  exact ⟨h1, h3, h6, h7⟩

theorem eq_of_stripSeq_eq_seq {a b : Domain} (h : stripSeq a = stripSeq b) (s : String) :
    ({ a with sequence := s } : Domain) = { b with sequence := s } := by
  cases a; cases b
  simp only [stripSeq, Domain.mk.injEq] at h
  obtain ⟨h1, h2, h3, h4, h5, h6, h7⟩ := h
  simp only [Domain.mk.injEq]
  exact ⟨h1, h2, h3, trivial, h5, h6, h7⟩

theorem set_stripSeq (l : List Domain) (i : Nat) (d d' : Domain) (hd : l[i]? = some d)
    (hdd : stripSeq d' = stripSeq d) (k : Nat) :
    ((l.set i d')[k]?).map stripSeq = (l[k]?).map stripSeq := by
  rw [List.getElem?_set]
  by_cases hik : i = k
  · subst hik
    obtain ⟨hlt, -⟩ := List.getElem?_eq_some.mp hd
    rw [if_pos rfl, if_pos hlt, hd]
    simp [hdd]
  · rw [if_neg hik]

theorem firstComplementIdx_some (l : List Domain) (did : Int) :
    ∀ (j : Nat), firstComplementIdx l did = some j →
      ∃ c, l[j]? = some c ∧ c.complementOf = some did := by
  induction l with
  | nil => intro j h; exact absurd h (by simp [firstComplementIdx])
  | cons d rest ih =>
      intro j h
      rw [firstComplementIdx] at h
      by_cases hd : d.complementOf = some did
      · rw [if_pos hd] at h
        injection h with h
        subst h
        exact ⟨d, by simp, hd⟩
      · rw [if_neg hd] at h
        cases hr : firstComplementIdx rest did with
        | none => rw [hr] at h; exact Option.noConfusion h
        | some j' =>
            rw [hr] at h
            simp only [Option.map_some'] at h
            injection h with h
            subst h
            obtain ⟨c, hc1, hc2⟩ := ih j' hr
            exact ⟨c, by simpa using hc1, hc2⟩

theorem firstComplementIdx_congr (l₁ : List Domain) :
    ∀ (l₂ : List Domain),
      (∀ k : Nat, (l₁[k]?).map stripSeq = (l₂[k]?).map stripSeq) →
      ∀ did, firstComplementIdx l₁ did = firstComplementIdx l₂ did := by
  induction l₁ with
  | nil =>
      intro l₂ h did
      cases l₂ with
      | nil => rfl
      | cons b bs =>
          have h0 := h 0
          rw [List.getElem?_nil, List.getElem?_cons_zero] at h0
          exact Option.noConfusion h0
  | cons a as ih =>
      intro l₂ h did
      cases l₂ with
      | nil =>
          have h0 := h 0
          rw [List.getElem?_nil, List.getElem?_cons_zero] at h0
          exact Option.noConfusion h0
      | cons b bs =>
          have h0 := h 0
          rw [List.getElem?_cons_zero, List.getElem?_cons_zero] at h0
          simp only [Option.map_some'] at h0
          injection h0 with h0
          have hco : a.complementOf = b.complementOf := (stripSeq_eq_fields h0).2.2.2
          have htail : ∀ k : Nat, (as[k]?).map stripSeq = (bs[k]?).map stripSeq := by
            intro k
            have hk := h (k + 1)
            rw [List.getElem?_cons_succ, List.getElem?_cons_succ] at hk
            exact hk
          simp only [firstComplementIdx, hco, ih bs htail did]

theorem complStep_stripSeq (l : List Domain) (did : Int) (s : String) (k : Nat) :
    ((complStep l did s)[k]?).map stripSeq = (l[k]?).map stripSeq := by
  cases hf : firstComplementIdx l did with
  | none => simp only [complStep, hf]
  | some j =>
      cases hc : l[j]? with
      | none => simp only [complStep, hf, hc]
      | some c =>
          simp only [complStep, hf, hc]
          exact set_stripSeq l j c { c with sequence := reverse_complement s } hc rfl k

theorem complStep_getElem_ne (l : List Domain) (did : Int) (s : String) (k : Nat)
    (hk : ∀ j c, firstComplementIdx l did = some j → l[j]? = some c → j ≠ k) :
    (complStep l did s)[k]? = l[k]? := by
  cases hf : firstComplementIdx l did with
  | none => simp only [complStep, hf]
  | some j =>
      cases hc : l[j]? with
      | none => simp only [complStep, hf, hc]
      | some c =>
          simp only [complStep, hf, hc]
          rw [List.getElem?_set, if_neg (hk j c hf hc)]

theorem mem_of_getElem?_eq_some {l : List Domain} {k : Nat} {d : Domain}
    (h : l[k]? = some d) : d ∈ l := by
  obtain ⟨hlt, hg⟩ := List.getElem?_eq_some.mp h
  rw [← hg]
  exact List.getElem_mem hlt

theorem complementSafe_of_stripSeq (l₁ l₂ : List Domain)
    (h : ∀ k : Nat, (l₂[k]?).map stripSeq = (l₁[k]?).map stripSeq)
    (hc : complementSafe l₁) : complementSafe l₂ := by
  intro d hd hco
  obtain ⟨k, hk, hget⟩ := List.mem_iff_getElem.mp hd
  have hkk := h k
  rw [List.getElem?_eq_getElem hk, hget] at hkk
  cases hl : l₁[k]? with
  | none => rw [hl] at hkk; simp at hkk
  | some d1 =>
      rw [hl] at hkk
      simp only [Option.map_some'] at hkk
      injection hkk with hkk
      obtain ⟨-, -, hic, hcof⟩ := stripSeq_eq_fields hkk
      have := hc d1 (mem_of_getElem?_eq_some hl) (by rw [← hcof]; exact hco)
      rw [hic, this]

theorem mapId_eq_of_stripSeq (l₁ l₂ : List Domain)
    (h : ∀ k : Nat, (l₂[k]?).map stripSeq = (l₁[k]?).map stripSeq) :
    l₂.map Domain.id = l₁.map Domain.id := by
  apply List.ext_getElem?
  intro n
  rw [List.getElem?_map, List.getElem?_map]
  have hn := h n
  cases h2 : l₂[n]? with
  | none =>
      rw [h2] at hn
      cases h1 : l₁[n]? with
      | none => simp
      | some d1 => rw [h1] at hn; simp at hn
  | some d2 =>
      rw [h2] at hn
      cases h1 : l₁[n]? with
      | none => rw [h1] at hn; simp at hn
      | some d1 =>
          rw [h1] at hn
          simp only [Option.map_some'] at hn
          injection hn with hn
          simp [(stripSeq_eq_fields hn).1]

theorem map_id_nodup_ne (l : List Domain) (h : (l.map Domain.id).Nodup)
    (i j : Nat) (a b : Domain) (ha : l[i]? = some a) (hb : l[j]? = some b)
    (hij : i ≠ j) : a.id ≠ b.id := by
  obtain ⟨hia, hga⟩ := List.getElem?_eq_some.mp ha
  obtain ⟨hjb, hgb⟩ := List.getElem?_eq_some.mp hb
  intro heq
  have hia' : i < (l.map Domain.id).length := by simpa using hia
  have hjb' : j < (l.map Domain.id).length := by simpa using hjb
  have hmap : (l.map Domain.id)[i] = (l.map Domain.id)[j] := by
    rw [List.getElem_map, List.getElem_map, hga, hgb]
    exact heq
  exact hij ((List.Nodup.getElem_inj_iff h).mp hmap)

theorem complGo_used_mono (pool : Nat → List String) (rand : Nat → Nat) :
    ∀ (idxs : List Nat) (t : Nat) (doms : List Domain) (used : List String),
      ∀ x ∈ used, x ∈ (complGo pool rand idxs t doms used).2.2 := by
  intro idxs
  induction idxs with
  | nil => intro t doms used x hx; exact hx
  | cons i rest ih =>
      intro t doms used x hx
      cases hd : doms[i]? with
      | none => simp only [complGo, hd]; exact hx
      | some d =>
          cases hdraw : get_sequences_from_redis (pool d.length) 1 used (fun _ => rand t) with
          | nil => simp only [complGo, hd, hdraw]; exact hx
          | cons s tail =>
              simp only [complGo, hd, hdraw]
              exact ih (t + 1) _ (s :: used) x (List.mem_cons_of_mem _ hx)

theorem complGo_stripSeq (pool : Nat → List String) (rand : Nat → Nat) :
    ∀ (idxs : List Nat) (t : Nat) (doms : List Domain) (used : List String) (k : Nat),
      (((complGo pool rand idxs t doms used).2.1)[k]?).map stripSeq
        = (doms[k]?).map stripSeq := by
  intro idxs
  induction idxs with
  | nil => intro t doms used k; rfl
  | cons i rest ih =>
      intro t doms used k
      cases hd : doms[i]? with
      | none => simp only [complGo, hd]
      | some d =>
          cases hdraw : get_sequences_from_redis (pool d.length) 1 used (fun _ => rand t) with
          | nil => simp only [complGo, hd, hdraw]
          | cons s tail =>
              simp only [complGo, hd, hdraw]
              rw [ih (t + 1) _ (s :: used) k, complStep_stripSeq,
                set_stripSeq doms i d { d with sequence := s } hd rfl k]

/-- A position holding a forward (non-complement) domain that the loop does not
iterate over is never modified: forward positions are only written when
iterated, and complement updates only touch positions whose domain carries a
`complementOf` back-reference (hence, under `complementSafe`, is marked
`isComplement`). -/
theorem complGo_preserves_forward (pool : Nat → List String) (rand : Nat → Nat) :
    ∀ (idxs : List Nat) (t : Nat) (doms : List Domain) (used : List String)
      (k : Nat) (dk : Domain),
      complementSafe doms → doms[k]? = some dk → dk.isComplement = false →
      (∀ i ∈ idxs, i ≠ k) →
      ((complGo pool rand idxs t doms used).2.1)[k]? = doms[k]? := by
  intro idxs
  induction idxs with
  | nil => intro t doms used k dk _ _ _ _; rfl
  | cons i rest ih =>
      intro t doms used k dk hsafe hget hfwd hne
      cases hd : doms[i]? with
      | none => simp only [complGo, hd]
      | some d =>
          cases hdraw : get_sequences_from_redis (pool d.length) 1 used (fun _ => rand t) with
          | nil => simp only [complGo, hd, hdraw]
          | cons s tail =>
              simp only [complGo, hd, hdraw]
              have hik : i ≠ k := hne i (List.mem_cons_self _ _)
              have h1strip : ∀ k' : Nat,
                  ((doms.set i { d with sequence := s })[k']?).map stripSeq
                    = (doms[k']?).map stripSeq :=
                fun k' => set_stripSeq doms i d { d with sequence := s } hd rfl k'
              have hsafe1 : complementSafe (doms.set i { d with sequence := s }) :=
                complementSafe_of_stripSeq doms _ h1strip hsafe
              have h1k : (doms.set i { d with sequence := s })[k]? = doms[k]? := by
                rw [List.getElem?_set, if_neg hik]
              have hnj : ∀ j c,
                  firstComplementIdx (doms.set i { d with sequence := s }) d.id = some j →
                  (doms.set i { d with sequence := s })[j]? = some c → j ≠ k := by
                intro j c hj hc hjk
                subst hjk
                have hcc : c.isComplement = true := by
                  obtain ⟨c', hc1, hc2⟩ := firstComplementIdx_some _ _ _ hj
                  rw [hc] at hc1
                  injection hc1 with hc1
                  refine hsafe1 c (mem_of_getElem?_eq_some hc) ?_
                  rw [hc1, hc2]
                  rfl
                rw [h1k, hget] at hc
                injection hc with hc
                rw [← hc, hfwd] at hcc
                exact Bool.noConfusion hcc
              have hstep : (complStep (doms.set i { d with sequence := s }) d.id s)[k]?
                  = doms[k]? := by
                rw [complStep_getElem_ne _ _ _ _ hnj, h1k]
              have hstrip2 : ∀ k' : Nat,
                  ((complStep (doms.set i { d with sequence := s }) d.id s)[k']?).map stripSeq
                    = (doms[k']?).map stripSeq := by
                intro k'
                rw [complStep_stripSeq, h1strip]
              have hsafe2 := complementSafe_of_stripSeq doms _ hstrip2 hsafe
              rw [ih (t + 1) _ (s :: used) k dk hsafe2 (by rw [hstep]; exact hget) hfwd
                (fun i' hi' => hne i' (List.mem_cons_of_mem _ hi')), hstep]

/-- A position holding a complement domain whose back-reference identity is not
among the identities of the iterated forward domains is never modified. -/
theorem complGo_preserves_target (pool : Nat → List String) (rand : Nat → Nat) :
    ∀ (idxs : List Nat) (t : Nat) (doms : List Domain) (used : List String)
      (k : Nat) (ck : Domain) (vid : Int),
      complementSafe doms → doms[k]? = some ck → ck.complementOf = some vid →
      (∀ i ∈ idxs, ∀ di, doms[i]? = some di →
          di.isComplement = false ∧ di.id ≠ vid) →
      ((complGo pool rand idxs t doms used).2.1)[k]? = doms[k]? := by
  intro idxs
  induction idxs with
  | nil => intro t doms used k ck vid _ _ _ _; rfl
  | cons i rest ih =>
      intro t doms used k ck vid hsafe hget hcof hreq
      cases hd : doms[i]? with
      | none => simp only [complGo, hd]
      | some d =>
          cases hdraw : get_sequences_from_redis (pool d.length) 1 used (fun _ => rand t) with
          | nil => simp only [complGo, hd, hdraw]
          | cons s tail =>
              simp only [complGo, hd, hdraw]
              obtain ⟨hdfwd, hdid⟩ := hreq i (List.mem_cons_self _ _) d hd
              have hdmem := mem_of_getElem?_eq_some hd
              have hik : i ≠ k := by
                intro hik
                have hd' := hd
                rw [hik, hget] at hd'
                injection hd' with hd'
                have hsome : d.complementOf.isSome = true := by rw [← hd', hcof]; rfl
                have := hsafe d hdmem hsome
                rw [hdfwd] at this
                exact Bool.noConfusion this
              have h1strip : ∀ k' : Nat,
                  ((doms.set i { d with sequence := s })[k']?).map stripSeq
                    = (doms[k']?).map stripSeq :=
                fun k' => set_stripSeq doms i d { d with sequence := s } hd rfl k'
              have hsafe1 : complementSafe (doms.set i { d with sequence := s }) :=
                complementSafe_of_stripSeq doms _ h1strip hsafe
              have h1k : (doms.set i { d with sequence := s })[k]? = doms[k]? := by
                rw [List.getElem?_set, if_neg hik]
              have hnj : ∀ j c,
                  firstComplementIdx (doms.set i { d with sequence := s }) d.id = some j →
                  (doms.set i { d with sequence := s })[j]? = some c → j ≠ k := by
                intro j c hj hc hjk
                subst hjk
                obtain ⟨c', hc1, hc2⟩ := firstComplementIdx_some _ _ _ hj
                rw [hc] at hc1
                injection hc1 with hc1
                rw [h1k, hget] at hc
                injection hc with hc
                -- now hc : ck = c, and hc1 : c = c' with c'.complementOf = some d.id
                rw [hc1] at hc
                rw [← hc] at hc2
                -- hc2 : ck.complementOf = some d.id, while hcof : = some vid
                rw [hcof] at hc2
                injection hc2 with hc2
                exact hdid hc2.symm
              have hstep : (complStep (doms.set i { d with sequence := s }) d.id s)[k]?
                  = doms[k]? := by
                rw [complStep_getElem_ne _ _ _ _ hnj, h1k]
              have hstrip2 : ∀ k' : Nat,
                  ((complStep (doms.set i { d with sequence := s }) d.id s)[k']?).map stripSeq
                    = (doms[k']?).map stripSeq := by
                intro k'
                rw [complStep_stripSeq, h1strip]
              have hsafe2 := complementSafe_of_stripSeq doms _ hstrip2 hsafe
              have hreq2 : ∀ i' ∈ rest, ∀ di',
                  (complStep (doms.set i { d with sequence := s }) d.id s)[i']? = some di' →
                  di'.isComplement = false ∧ di'.id ≠ vid := by
                intro i' hi' di' h2
                have hwit := hstrip2 i'
                rw [h2] at hwit
                cases h0 : doms[i']? with
                | none => rw [h0] at hwit; exact absurd hwit (by simp)
                | some d0 =>
                    rw [h0] at hwit
                    simp only [Option.map_some'] at hwit
                    injection hwit with hwit
                    obtain ⟨hid0, -, hic0, -⟩ := stripSeq_eq_fields hwit
                    obtain ⟨hf0, hn0⟩ := hreq i' (List.mem_cons_of_mem _ hi') d0 h0
                    rw [hic0, hid0]
                    exact ⟨hf0, hn0⟩
              rw [ih (t + 1) _ (s :: used) k ck vid hsafe2 (by rw [hstep]; exact hget)
                hcof hreq2, hstep]

/-- Core correctness of the complement-mode loop on a successful run: every
iterated (forward) position ends up with some drawn sequence `s` that is in the
final used set, and the first position whose `complementOf` references that
domain's identity ends up with `reverse_complement s`. -/
theorem complGo_assigns (pool : Nat → List String) (rand : Nat → Nat) :
    ∀ (idxs : List Nat) (t : Nat) (doms : List Domain) (used : List String)
      (out : List Domain) (usedF : List String),
      complGo pool rand idxs t doms used = (true, out, usedF) →
      idxs.Nodup →
      (∀ i ∈ idxs, ∀ di, doms[i]? = some di → di.isComplement = false) →
      complementSafe doms →
      (doms.map Domain.id).Nodup →
      ∀ i ∈ idxs, ∀ di, doms[i]? = some di →
        ∃ s, out[i]? = some { di with sequence := s } ∧ s ∈ usedF ∧
          ∀ j, firstComplementIdx doms di.id = some j →
            ∃ cj, out[j]? = some cj ∧ cj.sequence = reverse_complement s := by
  intro idxs
  induction idxs with
  | nil => intro t doms used out usedF _ _ _ _ _ i hi; exact absurd hi (by simp)
  | cons i0 rest ih =>
      intro t doms used out usedF hrun hnodup hfwd hsafe hids i hi di hdi
      obtain ⟨hi0notin, hnodup2⟩ := List.nodup_cons.mp hnodup
      cases hd : doms[i0]? with
      | none => rw [complGo] at hrun; rw [hd] at hrun; simp at hrun
      | some d =>
          cases hdraw : get_sequences_from_redis (pool d.length) 1 used (fun _ => rand t) with
          | nil => simp only [complGo, hd, hdraw] at hrun; simp at hrun
          | cons s tail =>
              simp only [complGo, hd, hdraw] at hrun
              have hdf : d.isComplement = false := hfwd i0 (List.mem_cons_self _ _) d hd
              have hlt : i0 < doms.length := (List.getElem?_eq_some.mp hd).1
              have h1strip : ∀ k : Nat,
                  ((doms.set i0 { d with sequence := s })[k]?).map stripSeq
                    = (doms[k]?).map stripSeq :=
                fun k => set_stripSeq doms i0 d { d with sequence := s } hd rfl k
              have hsafe1 : complementSafe (doms.set i0 { d with sequence := s }) :=
                complementSafe_of_stripSeq doms _ h1strip hsafe
              have hstrip2 : ∀ k : Nat,
                  ((complStep (doms.set i0 { d with sequence := s }) d.id s)[k]?).map stripSeq
                    = (doms[k]?).map stripSeq := by
                intro k
                rw [complStep_stripSeq, h1strip]
              have hsafe2 := complementSafe_of_stripSeq doms _ hstrip2 hsafe
              have hids2 :
                  ((complStep (doms.set i0 { d with sequence := s }) d.id s).map Domain.id).Nodup := by
                rw [mapId_eq_of_stripSeq doms _ hstrip2]
                exact hids
              have htransfer : ∀ i' ∈ rest, ∀ di',
                  (complStep (doms.set i0 { d with sequence := s }) d.id s)[i']? = some di' →
                  ∃ d0, doms[i']? = some d0 ∧ stripSeq di' = stripSeq d0 := by
                intro i' _ di' h2
                have hwit := hstrip2 i'
                rw [h2] at hwit
                cases h0 : doms[i']? with
                | none => rw [h0] at hwit; exact absurd hwit (by simp)
                | some d0 =>
                    rw [h0] at hwit
                    simp only [Option.map_some'] at hwit
                    injection hwit with hwit
                    exact ⟨d0, rfl, hwit⟩
              have hfwd2 : ∀ i' ∈ rest, ∀ di',
                  (complStep (doms.set i0 { d with sequence := s }) d.id s)[i']? = some di' →
                  di'.isComplement = false := by
                intro i' hi' di' h2
                obtain ⟨d0, h0, hwit⟩ := htransfer i' hi' di' h2
                rw [(stripSeq_eq_fields hwit).2.2.1]
                exact hfwd i' (List.mem_cons_of_mem _ hi') d0 h0
              have h1i : (doms.set i0 { d with sequence := s })[i0]?
                  = some { d with sequence := s } := by
                rw [List.getElem?_set, if_pos rfl, if_pos hlt]
              have hnj0 : ∀ j c,
                  firstComplementIdx (doms.set i0 { d with sequence := s }) d.id = some j →
                  (doms.set i0 { d with sequence := s })[j]? = some c → j ≠ i0 := by
                intro j c hj hc hji
                subst hji
                obtain ⟨c', hc1, hc2⟩ := firstComplementIdx_some _ _ _ hj
                rw [hc] at hc1
                injection hc1 with hc1
                have hcc : c.isComplement = true := by
                  refine hsafe1 c (mem_of_getElem?_eq_some hc) ?_
                  rw [hc1, hc2]
                  rfl
                rw [h1i] at hc
                injection hc with hc
                rw [← hc] at hcc
                simp only at hcc
                rw [hdf] at hcc
                exact Bool.noConfusion hcc
              have h2i : (complStep (doms.set i0 { d with sequence := s }) d.id s)[i0]?
                  = some { d with sequence := s } := by
                rw [complStep_getElem_ne _ _ _ _ hnj0, h1i]
              rcases List.mem_cons.mp hi with heq | hirest
              · -- the currently processed forward domain
                have hdid : di = d := by
                  rw [heq, hd] at hdi
                  exact (Option.some.inj hdi).symm
                rw [heq, hdid]
                have hout1 : (complGo pool rand rest (t + 1)
                    (complStep (doms.set i0 { d with sequence := s }) d.id s)
                    (s :: used)).2.1 = out := congrArg (fun r => r.2.1) hrun
                have hout2 : (complGo pool rand rest (t + 1)
                    (complStep (doms.set i0 { d with sequence := s }) d.id s)
                    (s :: used)).2.2 = usedF := congrArg (fun r => r.2.2) hrun
                refine ⟨s, ?_, ?_, ?_⟩
                · rw [← hout1]
                  rw [complGo_preserves_forward pool rand rest (t + 1) _ (s :: used) i0
                    { d with sequence := s } hsafe2 h2i (by simp only; exact hdf)
                    (fun i' hi' => by intro hii; rw [hii] at hi'; exact hi0notin hi'), h2i]
                · rw [← hout2]
                  exact complGo_used_mono pool rand rest (t + 1) _ (s :: used) s
                    (List.mem_cons_self _ _)
                · intro j hj
                  have hfj : firstComplementIdx (doms.set i0 { d with sequence := s }) d.id
                      = some j := by
                    rw [firstComplementIdx_congr _ doms h1strip d.id]
                    exact hj
                  obtain ⟨c, hcj, hcof⟩ := firstComplementIdx_some _ _ _ hfj
                  have h2j : (complStep (doms.set i0 { d with sequence := s }) d.id s)[j]?
                      = some { c with sequence := reverse_complement s } := by
                    simp only [complStep, hfj, hcj]
                    rw [List.getElem?_set, if_pos rfl,
                      if_pos (List.getElem?_eq_some.mp hcj).1]
                  have hreq2 : ∀ i' ∈ rest, ∀ di',
                      (complStep (doms.set i0 { d with sequence := s }) d.id s)[i']?
                        = some di' →
                      di'.isComplement = false ∧ di'.id ≠ d.id := by
                    intro i' hi' di' h2
                    obtain ⟨d0, h0, hwit⟩ := htransfer i' hi' di' h2
                    obtain ⟨hid0, -, hic0, -⟩ := stripSeq_eq_fields hwit
                    rw [hic0, hid0]
                    refine ⟨hfwd i' (List.mem_cons_of_mem _ hi') d0 h0, ?_⟩
                    refine map_id_nodup_ne doms hids i' i0 d0 d h0 hd ?_
                    intro hii
                    rw [hii] at hi'
                    exact hi0notin hi'
                  refine ⟨{ c with sequence := reverse_complement s }, ?_, rfl⟩
                  rw [← hout1]
                  rw [complGo_preserves_target pool rand rest (t + 1) _ (s :: used) j
                    { c with sequence := reverse_complement s } d.id hsafe2 h2j
                    (by simp only; exact hcof) hreq2, h2j]
              · -- a later forward domain
                have hwit := hstrip2 i
                rw [hdi] at hwit
                cases h2 : (complStep (doms.set i0 { d with sequence := s }) d.id s)[i]? with
                | none => rw [h2] at hwit; exact absurd hwit (by simp)
                | some di2 =>
                    rw [h2] at hwit
                    simp only [Option.map_some'] at hwit
                    injection hwit with hwit
                    obtain ⟨s', hout, hs'used, hcompl⟩ :=
                      ih (t + 1) _ (s :: used) out usedF hrun hnodup2 hfwd2 hsafe2 hids2
                        i hirest di2 h2
                    refine ⟨s', ?_, hs'used, ?_⟩
                    · rw [hout, eq_of_stripSeq_eq_seq hwit s']
                    · intro j hj
                      refine hcompl j ?_
                      rw [firstComplementIdx_congr _ doms hstrip2 di2.id,
                        (stripSeq_eq_fields hwit).1]
                      exact hj

/-- Test domains for the C4 counterexample/witness: one forward domain and two
complement domains both back-referencing it. -/
def domD : Domain := ⟨1, "d", 1, "", "binding", false, none⟩

/-- First complement of `domD`. -/
def domC1 : Domain := ⟨2, "c1", 1, "", "binding", true, some 1⟩

/-- Second complement of `domD` (same back-reference). -/
def domC2 : Domain := ⟨3, "c2", 1, "", "binding", true, some 1⟩

/-- Counterexample to C4 as stated: with two domains whose `complementOf` both
equal the forward domain's id, the code updates only the first
(`next(...)`); the second keeps its empty sequence, which is not the reverse
complement of the assigned sequence.  The call still returns successfully. -/
theorem c4_counterexample :
    design_domain_sequences (fun _ => ["A"]) witnessOracle (fun _ => 0)
        [domD, domC1, domC2]
      = (true,
         [⟨1, "d", 1, "A", "binding", false, none⟩,
          ⟨2, "c1", 1, "T", "binding", true, some 1⟩,
          ⟨3, "c2", 1, "", "binding", true, some 1⟩], ["A"]) ∧
    domC2.complementOf = some domD.id ∧
    reverse_complement "A" = "T" ∧
    ("" : String) ≠ "T" := by decide

/-- C4 (amended): in complement-tolerant assignment — assuming distinct domain
ids and that every domain with a `complementOf` back-reference is marked
`isComplement` — after a successful call, every forward domain `d` holds some
drawn sequence `s`, `s` is in the session's used set, and the FIRST domain (in
input order) whose `complementOf` equals `d`'s id holds `reverseComplement(s)`.
(The original claim's "every domain d* whose complementOf equals d's id" fails:
only the first is updated, see `c4_counterexample`.) -/
theorem c4_complement_assignment (pool : Nat → List String) (rand : Nat → Nat)
    (domains : List Domain)
    (hsafe : ∀ d ∈ domains, d.complementOf.isSome → d.isComplement = true)
    (hids : (domains.map Domain.id).Nodup)
    (out : List Domain) (usedF : List String)
    (hrun : design_with_complements pool rand domains = (true, out, usedF)) :
    ∀ (i : Nat) (di : Domain), domains[i]? = some di → di.isComplement = false →
      ∃ s, out[i]? = some { di with sequence := s } ∧ s ∈ usedF ∧
        ∀ j, firstComplementIdx domains di.id = some j →
          ∃ cj, out[j]? = some cj ∧ cj.sequence = reverse_complement s := by
  intro i di hdi hfw
  have hmem : i ∈ (List.range domains.length).filter fun i =>
      match domains[i]? with
      | some d => !d.isComplement
      | none => false := by
    rw [List.mem_filter]
    refine ⟨List.mem_range.mpr (List.getElem?_eq_some.mp hdi).1, ?_⟩
    simp only [hdi, hfw, Bool.not_false]
  exact complGo_assigns pool rand _ 0 domains [] out usedF hrun
    (List.Nodup.filter _ (List.nodup_range _))
    (fun i' hi' di' hdi' => by
      have hp := (List.mem_filter.mp hi').2
      simp only [hdi', Bool.not_eq_true'] at hp
      exact hp)
    hsafe hids i hmem di hdi

/-- Witness for the amended C4 at a concrete forward/complement pair. -/
theorem c4_witness :
    ∃ s, ((design_with_complements (fun _ => ["A"]) (fun _ => 0)
            [domD, domC1]).2.1)[0]? = some { domD with sequence := s } ∧
      s ∈ (design_with_complements (fun _ => ["A"]) (fun _ => 0) [domD, domC1]).2.2 ∧
      ∀ j, firstComplementIdx [domD, domC1] domD.id = some j →
        ∃ cj, ((design_with_complements (fun _ => ["A"]) (fun _ => 0)
                [domD, domC1]).2.1)[j]? = some cj ∧
          cj.sequence = reverse_complement s :=
  c4_complement_assignment (fun _ => ["A"]) (fun _ => 0) [domD, domC1]
    (by decide) (by decide)
    (design_with_complements (fun _ => ["A"]) (fun _ => 0) [domD, domC1]).2.1
    (design_with_complements (fun _ => ["A"]) (fun _ => 0) [domD, domC1]).2.2
    (by decide) 0 domD (by decide) (by decide)

/-! ## backend/generate_oligo_sequences.py: the Filter Rule Engine and Pool
Builder (claims C6, C8) -/

/-- generate_oligo_sequences.py `calculate_gc_content`: case-sensitive G/C
count, no empty-string guard.  (On the empty string Python raises
`ZeroDivisionError`, which `validate_sequence`'s `except` turns into a
rejection; here `x / 0 = 0` in `ℚ` fails the GC lower bound, giving the same
rejection.) -/
def builder_gc_content (sequence : String) : ℚ :=
  ((pyCount sequence 'G' + pyCount sequence 'C' : ℚ) / sequence.data.length) * 100

/-- The running purine/pyrimidine-run scan of `has_repetitive_patterns`
(check 6): flag a run of 5 or more consecutive purines (A/G) or
pyrimidines (C/T). -/
def purine_pyrimidine_run (seq : List Char) : Bool :=
  (seq.foldl
    (fun (st : Nat × Nat × Bool) base =>
      let pur := if base = 'A' ∨ base = 'G' then st.1 + 1 else 0
      let pyr := if base = 'C' ∨ base = 'T' then st.2.1 + 1 else 0
      (pur, pyr, st.2.2 || decide (5 ≤ pur) || decide (5 ≤ pyr)))
    (0, 0, false)).2.2

/-- generate_oligo_sequences.py `has_repetitive_patterns`: homopolymer 4-runs,
dinucleotide ×3 repeats, trinucleotide ×3 repeats, 8-character reversal
palindromes, >60% single-base composition (exact rationals for Python's
`len * 0.6`), and purine/pyrimidine 5-runs, all on the upper-cased sequence. -/
def has_repetitive_patterns (sequence : String) : Bool :=
  ((['A', 'T', 'G', 'C'] : List Char).any fun b =>
    pyIn (String.mk [b, b, b, b]) (pyUpper sequence)) ||
  ((["AT", "TA", "GC", "CG", "AG", "GA", "CT", "TC"] : List String).any fun dn =>
    pyIn (dn ++ dn ++ dn) (pyUpper sequence)) ||
  (decide (9 ≤ (pyUpper sequence).data.length) &&
    ((List.range ((pyUpper sequence).data.length - 8)).any fun i =>
      pySlice (pyUpper sequence) i 3 ++ pySlice (pyUpper sequence) i 3
          ++ pySlice (pyUpper sequence) i 3 == pySlice (pyUpper sequence) i 9)) ||
  (decide (8 ≤ (pyUpper sequence).data.length) &&
    ((List.range ((pyUpper sequence).data.length - 7)).any fun i =>
      pySlice (pyUpper sequence) i 8 == pyRev (pySlice (pyUpper sequence) i 8))) ||
  ((['A', 'T', 'G', 'C'] : List Char).any fun b =>
    decide (((pyUpper sequence).data.count b : ℚ)
      > ((pyUpper sequence).data.length : ℚ) * (6 / 10))) ||
  purine_pyrimidine_run (pyUpper sequence).data

/-- The {A,T,G,C}-only complement used by `check_symmetry_constraints` (no `N`
entry, fallback keeps the character). -/
def symComplementChar (c : Char) : Char :=
  if c = 'A' then 'T'
  else if c = 'T' then 'A'
  else if c = 'G' then 'C'
  else if c = 'C' then 'G'
  else c

/-- The reverse complement as computed inside `check_symmetry_constraints`. -/
def symRC (s : String) : String := String.mk (s.data.reverse.map symComplementChar)

/-- generate_oligo_sequences.py `check_symmetry_constraints` (true = pass):
rejects self-reverse-complement sequences, self-reverse sequences, a first
half equal to the reverse complement of the second half (length ≥ 12), and a
4-mer whose reverse complement recurs at least 4 positions later (the source's
inner `j - i >= 4` test is implied by `j ∈ range(i+4, length)` and kept only as
the range bound). -/
def check_symmetry_constraints (sequence : String) : Bool :=
  if pyUpper sequence = symRC (pyUpper sequence) then false
  else if pyUpper sequence = pyRev (pyUpper sequence) then false
  else if 12 ≤ (pyUpper sequence).data.length ∧
      pySlice (pyUpper sequence) 0 ((pyUpper sequence).data.length / 2)
        = symRC (pySlice (pyUpper sequence) ((pyUpper sequence).data.length / 2)
            ((pyUpper sequence).data.length / 2)) then false
  else if 8 ≤ (pyUpper sequence).data.length ∧
      ((List.range ((pyUpper sequence).data.length - 3)).any fun i =>
        (List.range' (i + 4) ((pyUpper sequence).data.length - (i + 4))).any fun j =>
          decide (4 ≤ (pySlice (pyUpper sequence) j 4).data.length) &&
          decide (pySlice (pyUpper sequence) i 4
            = symRC (pySlice (pyUpper sequence) j 4))) = true then false
  else true

/-- The fixed primer denylist of `has_problematic_motifs`. -/
def m13_common_primers : List String :=
  ["GTAAAACGACGGCCAGT", "CAGGAAACAGCTATGAC", "TGTAAAACGACGGCCAGT"]

/-- generate_oligo_sequences.py `has_problematic_motifs`: restriction sites,
polymerase-problematic 6-runs, and ≥7-of-8 matches against a sliding window of
the common M13 primers.  (The source's outermost `for primer in
common_primers` loop never uses its loop variable; it only repeats the same
scan, so the boolean is unchanged — it is kept as the outer `any`.) -/
def has_problematic_motifs (sequence : String) : Bool :=
  ((["GAATTC", "GGATCC", "AAGCTT", "CTGCAG", "GTCGAC", "CCATGG", "GCGGCCGC",
      "TCTAGA"] : List String).any fun site => pyIn site (pyUpper sequence)) ||
  ((["GGGGGG", "CCCCCC", "AAAAAA", "TTTTTT"] : List String).any fun motif =>
    pyIn motif (pyUpper sequence)) ||
  (m13_common_primers.any fun _ =>
    decide (8 ≤ (pyUpper sequence).data.length) &&
    ((List.range ((pyUpper sequence).data.length - 7)).any fun i =>
      m13_common_primers.any fun p =>
        decide (8 ≤ p.data.length) &&
        ((List.range (p.data.length - 7)).any fun j =>
          decide (7 ≤ (((pySlice (pyUpper sequence) i 8).data.zip
            (pySlice p j 8).data).filter fun ab => ab.1 == ab.2).length))))

/-- generate_oligo_sequences.py `validate_sequence`: the Filter Rule Engine's
all-or-nothing accept predicate.  The early-return chain of the source is the
conjunction of its checks; the primer3 calls are oracle calls on the raw
sequence (the builder does not upper-case before calling primer3);
`SETTINGS` values are inlined as the literal defaults. -/
def validate_sequence (o : Oracle) (sequence : String) : Bool :=
  decide (30 ≤ builder_gc_content sequence ∧ builder_gc_content sequence ≤ 70) &&
  decide (42 ≤ o.tm sequence ∧ o.tm sequence ≤ 60) &&
  decide (o.hairpinTm sequence ≤ 32) &&
  decide (o.homodimerTm sequence ≤ 32) &&
  (if 6 ≤ sequence.data.length then
    decide (o.hairpinTm (pyTakeLast sequence 6) ≤ 27) &&
    decide (o.homodimerTm (pyTakeLast sequence 6) ≤ 27)
   else true) &&
  !has_repetitive_patterns sequence &&
  check_symmetry_constraints sequence &&
  !has_problematic_motifs sequence

/-- The per-character compatibility between the two complement maps: upper-case
of models.py's complement equals `check_symmetry_constraints`'s complement of
the upper-case. -/
theorem toUpper_complementChar (c : Char) :
    Char.toUpper (complementChar c) = symComplementChar (Char.toUpper c) := by
  by_cases hA : c.toUpper = 'A'
  · simp [complementChar, symComplementChar, hA]
  · by_cases hT : c.toUpper = 'T'
    · simp [complementChar, symComplementChar, hA, hT]
    · by_cases hG : c.toUpper = 'G'
      · simp [complementChar, symComplementChar, hA, hT, hG]
      · by_cases hC : c.toUpper = 'C'
        · simp [complementChar, symComplementChar, hA, hT, hG, hC]
        · by_cases hN : c.toUpper = 'N'
          · simp [complementChar, symComplementChar, hA, hT, hG, hC, hN]
          · simp [complementChar, symComplementChar, hA, hT, hG, hC, hN]

theorem pyUpper_reverse_complement (s : String) :
    pyUpper (reverse_complement s) = symRC (pyUpper s) := by
  apply String.ext
  show ((reverse_complement s).data.map Char.toUpper)
      = ((pyUpper s).data.reverse.map symComplementChar)
  simp only [reverse_complement, pyUpper]
  rw [List.map_map, ← List.map_reverse, List.map_map]
  exact List.map_congr_left fun c _ => toUpper_complementChar c

/-- C6: every sequence accepted by the Filter Rule Engine (for any oracle
behaviour) has GC content within the configured 30–70% bounds, contains no run
of four or more identical consecutive bases (A/T/G/C, case-insensitively), and
is not equal to its own reverse complement. -/
theorem c6_filter_engine_guarantees (o : Oracle) (s : String)
    (h : validate_sequence o s = true) :
    (30 ≤ builder_gc_content s ∧ builder_gc_content s ≤ 70) ∧
    (∀ b ∈ (['A', 'T', 'G', 'C'] : List Char), ¬ ([b, b, b, b] <:+: (pyUpper s).data)) ∧
    s ≠ reverse_complement s := by
  rw [validate_sequence] at h
  simp only [Bool.and_eq_true, decide_eq_true_eq, Bool.not_eq_true'] at h
  obtain ⟨⟨⟨⟨⟨⟨⟨hgc, htm⟩, hhp⟩, hhd⟩, h3p⟩, hrep⟩, hsym⟩, hmot⟩ := h
  refine ⟨hgc, ?_, ?_⟩
  · intro b hb hinf
    have hfirst : ((['A', 'T', 'G', 'C'] : List Char).any fun b =>
        pyIn (String.mk [b, b, b, b]) (pyUpper s)) = false := by
      rw [has_repetitive_patterns] at hrep
      simp only [Bool.or_eq_false_iff] at hrep
      exact hrep.1.1.1.1.1
    have := List.any_eq_false.mp hfirst b hb
    rw [Bool.not_eq_true] at this
    have hdec : decide ([b, b, b, b] <:+: (pyUpper s).data) = false := this
    rw [decide_eq_false_iff_not] at hdec
    exact hdec hinf
  · intro heq
    have hcond : pyUpper s ≠ symRC (pyUpper s) := by
      intro hc
      rw [check_symmetry_constraints, if_pos hc] at hsym
      exact Bool.noConfusion hsym
    apply hcond
    calc pyUpper s = pyUpper (reverse_complement s) := by rw [← heq]
      _ = symRC (pyUpper s) := pyUpper_reverse_complement s

/-- Rational arithmetic (division, `Nat.gcd` normalisation) does not reduce in
the kernel, so the acceptance of the concrete witness sequence is evaluated
piecewise: the discrete checks by `decide`, the rational comparisons by
`norm_num`. -/
theorem validate_sequence_witness_eval :
    validate_sequence witnessOracle "ATGCAGTCAG" = true := by
  have hgc : builder_gc_content "ATGCAGTCAG" = 50 := by
    rw [builder_gc_content,
      show pyCount "ATGCAGTCAG" 'G' = 3 from by decide,
      show pyCount "ATGCAGTCAG" 'C' = 2 from by decide,
      show ("ATGCAGTCAG" : String).data.length = 10 from by decide]
    norm_num
  have hupper : pyUpper "ATGCAGTCAG" = "ATGCAGTCAG" := by decide
  have hlow : ((['A', 'T', 'G', 'C'] : List Char).any fun b =>
      decide (((pyUpper "ATGCAGTCAG").data.count b : ℚ)
        > ((pyUpper "ATGCAGTCAG").data.length : ℚ) * (6 / 10))) = false := by
    rw [hupper]
    refine List.any_eq_false.mpr ?_
    intro b hb
    rw [decide_eq_true_eq,
      show ("ATGCAGTCAG" : String).data.length = 10 from by decide]
    fin_cases hb
    · rw [show ("ATGCAGTCAG" : String).data.count 'A' = 3 from by decide]
      norm_num
    · rw [show ("ATGCAGTCAG" : String).data.count 'T' = 2 from by decide]
      norm_num
    · rw [show ("ATGCAGTCAG" : String).data.count 'G' = 3 from by decide]
      norm_num
    · rw [show ("ATGCAGTCAG" : String).data.count 'C' = 2 from by decide]
      norm_num
  have hrep : has_repetitive_patterns "ATGCAGTCAG" = false := by
    rw [has_repetitive_patterns, hlow,
      show ((['A', 'T', 'G', 'C'] : List Char).any fun b =>
        pyIn (String.mk [b, b, b, b]) (pyUpper "ATGCAGTCAG")) = false from by decide,
      show ((["AT", "TA", "GC", "CG", "AG", "GA", "CT", "TC"] : List String).any fun dn =>
        pyIn (dn ++ dn ++ dn) (pyUpper "ATGCAGTCAG")) = false from by decide,
      show (decide (9 ≤ (pyUpper "ATGCAGTCAG").data.length) &&
        ((List.range ((pyUpper "ATGCAGTCAG").data.length - 8)).any fun i =>
          pySlice (pyUpper "ATGCAGTCAG") i 3 ++ pySlice (pyUpper "ATGCAGTCAG") i 3
              ++ pySlice (pyUpper "ATGCAGTCAG") i 3
            == pySlice (pyUpper "ATGCAGTCAG") i 9)) = false from by decide,
      show (decide (8 ≤ (pyUpper "ATGCAGTCAG").data.length) &&
        ((List.range ((pyUpper "ATGCAGTCAG").data.length - 7)).any fun i =>
          pySlice (pyUpper "ATGCAGTCAG") i 8
            == pyRev (pySlice (pyUpper "ATGCAGTCAG") i 8))) = false from by decide,
      show purine_pyrimidine_run (pyUpper "ATGCAGTCAG").data = false from by decide]
    rfl
  rw [validate_sequence, hrep,
    show check_symmetry_constraints "ATGCAGTCAG" = true from by decide,
    show has_problematic_motifs "ATGCAGTCAG" = false from by decide]
  rw [show witnessOracle.tm "ATGCAGTCAG" = 50 from rfl]
  rw [show witnessOracle.hairpinTm "ATGCAGTCAG" = 0 from rfl,
    show witnessOracle.homodimerTm "ATGCAGTCAG" = 0 from rfl,
    show witnessOracle.hairpinTm (pyTakeLast "ATGCAGTCAG" 6) = 0 from rfl,
    show witnessOracle.homodimerTm (pyTakeLast "ATGCAGTCAG" 6) = 0 from rfl, hgc]
  norm_num

/-- Witness for C6 at a concrete accepted sequence. -/
theorem c6_witness :
    (30 ≤ builder_gc_content "ATGCAGTCAG" ∧ builder_gc_content "ATGCAGTCAG" ≤ 70) ∧
    (∀ b ∈ (['A', 'T', 'G', 'C'] : List Char),
        ¬ ([b, b, b, b] <:+: (pyUpper "ATGCAGTCAG").data)) ∧
    "ATGCAGTCAG" ≠ reverse_complement "ATGCAGTCAG" :=
  c6_filter_engine_guarantees witnessOracle "ATGCAGTCAG" validate_sequence_witness_eval

/-- generate_oligo_sequences.py `generate_sequences_for_length`'s while loop.
`gen attempts` models the random draw of attempt number `attempts`; `fuel` is
`max_attempts - attempts`, so the loop condition `attempts < max_attempts` is
`fuel > 0`. -/
def genGo (o : Oracle) (gen : Nat → String) (existing : List String) (target : Nat) :
    Nat → Nat → List String → List String × Nat
  | 0, attempts, valid => (valid, attempts)
  | fuel + 1, attempts, valid =>
    if valid.length < target then
      if existing.contains (gen (attempts + 1)) || valid.contains (gen (attempts + 1)) then
        genGo o gen existing target fuel (attempts + 1) valid
      else if validate_sequence o (gen (attempts + 1)) then
        genGo o gen existing target fuel (attempts + 1) (valid ++ [gen (attempts + 1)])
      else genGo o gen existing target fuel (attempts + 1) valid
    else (valid, attempts)

/-- generate_oligo_sequences.py `generate_sequences_for_length` (worker):
returns `(length, accepted sequences, attempt count)` with the attempt cap
`target_count * 1000`. -/
def generate_sequences_for_length (o : Oracle) (gen : Nat → String) (length : Nat)
    (target_count : Nat) (existing : List String) : Nat × List String × Nat :=
  let r := genGo o gen existing target_count (target_count * 1000) 0 []
  (length, r.1, r.2)

theorem genGo_spec (o : Oracle) (gen : Nat → String) (existing : List String)
    (target : Nat) :
    ∀ (fuel attempts : Nat) (valid : List String),
      valid.length ≤ target →
      (∀ s ∈ valid, validate_sequence o s = true) →
      (genGo o gen existing target fuel attempts valid).2 ≤ attempts + fuel ∧
      (genGo o gen existing target fuel attempts valid).1.length ≤ target ∧
      (∀ s ∈ (genGo o gen existing target fuel attempts valid).1,
          validate_sequence o s = true) ∧
      ((genGo o gen existing target fuel attempts valid).1.length < target →
        (genGo o gen existing target fuel attempts valid).2 = attempts + fuel) := by
  intro fuel
  induction fuel with
  | zero =>
      intro attempts valid hlen hval
      exact ⟨Nat.le_refl _, hlen, hval, fun _ => rfl⟩
  | succ fuel ih =>
      intro attempts valid hlen hval
      rw [genGo]
      by_cases hloop : valid.length < target
      · rw [if_pos hloop]
        by_cases hskip : existing.contains (gen (attempts + 1))
            || valid.contains (gen (attempts + 1))
        · rw [if_pos hskip]
          obtain ⟨h1, h2, h3, h4⟩ := ih (attempts + 1) valid hlen hval
          exact ⟨by omega, h2, h3, fun hl => by rw [h4 hl]; omega⟩
        · rw [if_neg hskip]
          by_cases hok : validate_sequence o (gen (attempts + 1)) = true
          · rw [if_pos hok]
            have hlen' : (valid ++ [gen (attempts + 1)]).length ≤ target := by
              rw [List.length_append]
              simp only [List.length_singleton]
              omega
            have hval' : ∀ s ∈ valid ++ [gen (attempts + 1)],
                validate_sequence o s = true := by
              intro s hs
              rcases List.mem_append.mp hs with hs | hs
              · exact hval s hs
              · rw [List.mem_singleton.mp hs]
                exact hok
            obtain ⟨h1, h2, h3, h4⟩ := ih (attempts + 1) _ hlen' hval'
            exact ⟨by omega, h2, h3, fun hl => by rw [h4 hl]; omega⟩
          · rw [if_neg hok]
            obtain ⟨h1, h2, h3, h4⟩ := ih (attempts + 1) valid hlen hval
            exact ⟨by omega, h2, h3, fun hl => by rw [h4 hl]; omega⟩
      · rw [if_neg hloop]
        exact ⟨by omega, hlen, hval, fun hl => absurd hl hloop⟩

/-- C8: for every length, oracle behaviour, and random stream, the per-length
worker terminates with at most `quota * 1000` attempts; returns at most
`quota` accepted sequences, each of which passed the Filter Rule Engine;
records the length and the attempt count in its result triple; and reports a
partial fill as a normal return — when fewer than `quota` sequences are
returned the worker has used exactly its full attempt budget, not raised an
error. -/
theorem c8_pool_builder_worker (o : Oracle) (gen : Nat → String) (length : Nat)
    (target_count : Nat) (existing : List String) :
    (generate_sequences_for_length o gen length target_count existing).2.2
        ≤ target_count * 1000 ∧
    (generate_sequences_for_length o gen length target_count existing).2.1.length
        ≤ target_count ∧
    (∀ s ∈ (generate_sequences_for_length o gen length target_count existing).2.1,
        validate_sequence o s = true) ∧
    ((generate_sequences_for_length o gen length target_count existing).2.1.length
        < target_count →
      (generate_sequences_for_length o gen length target_count existing).2.2
        = target_count * 1000) ∧
    (generate_sequences_for_length o gen length target_count existing).1 = length := by
  obtain ⟨h1, h2, h3, h4⟩ := genGo_spec o gen existing target_count
    (target_count * 1000) 0 [] (by simp) (by simp)
  exact ⟨by simpa using h1, h2, h3, fun hl => by simpa using h4 hl, rfl⟩

/-- Witness for C8 at a concrete worker run (quota 1, immediately filled). -/
theorem c8_witness :
    (generate_sequences_for_length witnessOracle (fun _ => "ATGCAGTCAG") 10 1 []).2.2
        ≤ 1 * 1000 ∧
    (generate_sequences_for_length witnessOracle (fun _ => "ATGCAGTCAG") 10 1 []).2.1.length
        ≤ 1 ∧
    (∀ s ∈ (generate_sequences_for_length witnessOracle (fun _ => "ATGCAGTCAG") 10 1 []).2.1,
        validate_sequence witnessOracle s = true) ∧
    ((generate_sequences_for_length witnessOracle (fun _ => "ATGCAGTCAG") 10 1 []).2.1.length
        < 1 →
      (generate_sequences_for_length witnessOracle (fun _ => "ATGCAGTCAG") 10 1 []).2.2
        = 1 * 1000) ∧
    (generate_sequences_for_length witnessOracle (fun _ => "ATGCAGTCAG") 10 1 []).1 = 10 :=
  c8_pool_builder_worker witnessOracle (fun _ => "ATGCAGTCAG") 10 1 []

/-! ## backend/core/validator.py: domain/strand validation (claim C9) -/

/-- validator.py `_validate_length`. -/
def validate_length (sequence : String) (expected_length : Nat) : ValidationResult :=
  ⟨sequence.data.length == expected_length, "length"⟩

/-- validator.py `_validate_gc_content`. -/
def validate_gc_content (st : ValidationSettings) (sequence : String) : ValidationResult :=
  ⟨decide (st.gcContentMin ≤ calculate_gc_content sequence ∧
    calculate_gc_content sequence ≤ st.gcContentMax), "gc_content"⟩

/-- validator.py `_validate_melting_temperature`. -/
def validate_melting_temperature (o : Oracle) (st : ValidationSettings)
    (sequence : String) : ValidationResult :=
  ⟨decide (st.hybridizationTmMin ≤ calculate_melting_temperature o sequence ∧
    calculate_melting_temperature o sequence ≤ st.hybridizationTmMax), "melting_temp"⟩

/-- validator.py `_validate_hairpin_formation`. -/
def validate_hairpin_formation (o : Oracle) (st : ValidationSettings)
    (sequence : String) : ValidationResult :=
  ⟨decide (calculate_hairpin_tm o sequence ≤ st.hairpinTm), "hairpin"⟩

/-- validator.py `_validate_self_dimer`. -/
def validate_self_dimer (o : Oracle) (st : ValidationSettings)
    (sequence : String) : ValidationResult :=
  ⟨decide (calculate_self_dimer_tm o sequence ≤ st.selfDimerTm), "self_dimer"⟩

/-- validator.py `_find_problematic_patterns` (distinct from the Pool Builder's
pattern scan: no upper-casing, a different repeat list, a 5-site denylist, and
AAAAA/GGGGG / TTTTT/CCCCC runs). -/
def find_problematic_patterns (sequence : String) : List String :=
  ((['A', 'T', 'G', 'C'] : List Char).filter fun b =>
    pyIn (String.mk [b, b, b, b]) sequence).map (fun b => String.mk [b] ++ "4+") ++
  (["ATAT", "TATA", "CGCG", "GCGC", "AAGG", "CCTT", "GGCC", "TTAA"] :
    List String).filter (fun r => pyIn r sequence) ++
  (((["GAATTC", "GGATCC", "AAGCTT", "CTGCAG", "GTCGAC"] : List String).filter
    fun site => pyIn site sequence).map fun site => "RestSite:" ++ site) ++
  (if pyIn "AAAAA" sequence || pyIn "GGGGG" sequence then ["Purine-run"] else []) ++
  (if pyIn "TTTTT" sequence || pyIn "CCCCC" sequence then ["Pyrimidine-run"] else [])

/-- validator.py `_validate_sequence_patterns`. -/
def validate_sequence_patterns (sequence : String) : ValidationResult :=
  ⟨(find_problematic_patterns sequence).length == 0, "patterns"⟩

/-- validator.py `_validate_three_prime_region`: the three 3'-end results,
including the GC-clamp rule (at most 3 G/C in the last 5 bases). -/
def validate_three_prime_region (o : Oracle) (st : ValidationSettings)
    (sequence : String) : List (String × ValidationResult) :=
  [("threePrimeHairpin",
      ⟨decide (calculate_three_prime_hairpin_tm o sequence st.threePrimeLength
        ≤ st.threePrimeHairpinTm), "three_prime_hairpin"⟩),
   ("threePrimeSelfDimer",
      ⟨decide (calculate_three_prime_self_dimer_tm o sequence st.threePrimeLength
        ≤ st.threePrimeSelfDimerTm), "three_prime_self_dimer"⟩),
   ("threePrimeGCClamp",
      ⟨decide (pyCount (pyTakeLast sequence 5) 'G' + pyCount (pyTakeLast sequence 5) 'C'
        ≤ 3), "three_prime_gc_clamp"⟩)]

/-- validator.py `_create_empty_validation_results`: the single `sequence`
check produced for an empty/absent sequence. -/
def create_empty_validation_results : List (String × ValidationResult) :=
  [("sequence", ⟨false, "sequence"⟩)]

/-- validator.py `validate_domain`. -/
def validate_domain (o : Oracle) (st : ValidationSettings) (d : Domain) :
    List (String × ValidationResult) :=
  if d.sequence = "" then create_empty_validation_results
  else
    [("length", validate_length d.sequence d.length),
     ("gcContent", validate_gc_content st d.sequence),
     ("meltingTemp", validate_melting_temperature o st d.sequence),
     ("hairpin", validate_hairpin_formation o st d.sequence),
     ("selfDimer", validate_self_dimer o st d.sequence),
     ("patterns", validate_sequence_patterns d.sequence)] ++
    validate_three_prime_region o st d.sequence

/-- validator.py `_validate_strand_length`: expected length is the sum of the
lengths of the provided domains whose id occurs in the strand's `domainIds`
(trivially passing when no domains are provided). -/
def validate_strand_length (strand : Strand) (domains : List Domain) : ValidationResult :=
  if domains.isEmpty then ⟨true, "strand_length"⟩
  else
    ⟨strand.sequence.data.length ==
      ((domains.filter fun d => strand.domainIds.contains d.id).map Domain.length).sum,
     "strand_length"⟩

/-- validator.py `_validate_domain_composition`: the expected strand sequence
is the concatenation, over the strand's `domainIds`, of the (non-empty)
sequence of the last provided domain with that id (`domain_dict` keeps the last
occurrence). -/
def domain_composition_expected (strand : Strand) (domains : List Domain) : String :=
  String.join (strand.domainIds.filterMap fun did =>
    match domains.reverse.find? fun d => d.id == did with
    | some d => if d.sequence = "" then none else some d.sequence
    | none => none)

/-- validator.py `_validate_domain_composition`. -/
def validate_domain_composition (strand : Strand) (domains : List Domain) :
    ValidationResult :=
  ⟨strand.sequence == domain_composition_expected strand domains, "composition"⟩

/-- validator.py `validate_strand` (the Python `domains=None` default and an
empty list both skip the composition checks). -/
def validate_strand (o : Oracle) (st : ValidationSettings) (strand : Strand)
    (domains : List Domain) : List (String × ValidationResult) :=
  if strand.sequence = "" then create_empty_validation_results
  else
    [("length", validate_strand_length strand domains),
     ("gcContent", validate_gc_content st strand.sequence),
     ("meltingTemp", validate_melting_temperature o st strand.sequence),
     ("hairpin", validate_hairpin_formation o st strand.sequence),
     ("selfDimer", validate_self_dimer o st strand.sequence),
     ("patterns", validate_sequence_patterns strand.sequence)] ++
    validate_three_prime_region o st strand.sequence ++
    (if domains.isEmpty then []
     else [("composition", validate_domain_composition strand domains)])

/-- C9: a domain or strand whose sequence is empty yields exactly the
single-entry result map with check name `sequence`, `check_type = "sequence"`
and `passed = false` — no thermodynamic or pattern checks are run. -/
theorem c9_empty_sequence_single_result (o : Oracle) (st : ValidationSettings)
    (d : Domain) (strand : Strand) (domains : List Domain)
    (hd : d.sequence = "") (hs : strand.sequence = "") :
    validate_domain o st d = [("sequence", ⟨false, "sequence"⟩)] ∧
    validate_strand o st strand domains = [("sequence", ⟨false, "sequence"⟩)] := by
  constructor
  · rw [validate_domain, if_pos hd]
    rfl
  · rw [validate_strand, if_pos hs]
    rfl

/-- Witness for C9 at a concrete empty domain and strand. -/
theorem c9_witness :
    validate_domain witnessOracle defaultSettings ⟨7, "empty", 5, "", "binding", false, none⟩
      = [("sequence", ⟨false, "sequence"⟩)] ∧
    validate_strand witnessOracle defaultSettings ⟨8, "emptyStrand", [7], "", false⟩ []
      = [("sequence", ⟨false, "sequence"⟩)] :=
  c9_empty_sequence_single_result witnessOracle defaultSettings
    ⟨7, "empty", 5, "", "binding", false, none⟩ ⟨8, "emptyStrand", [7], "", false⟩ [] rfl rfl

end Magellan
